import Mathlib

/-!
Verification development for the subtitle-ingestion pipeline
(src/srt_parser/types.rs, src/srt_parser/parsing.rs,
src/srt_parser/episode_info.rs, src/db.rs).

Strings are modelled as `List Char` (Rust `str` iterates Unicode scalar
values, which is exactly Lean's `Char`).  Machine integers are modelled as
`Nat`/`Int` with explicit bounds where the source parses into a bounded
type (`u32`, `usize`, `i32`).  Fallible code returns `Option`/`Except`.
Recursion that is not structural in the source is driven by an explicit
fuel argument so every definition is kernel-computable.

The regex character class `\d` of the source's patterns is modelled as the
ASCII digit class; every concrete input appearing in a theorem below is
ASCII, where the two classes agree.
-/

set_option maxRecDepth 10000

/-! ### String literal constants (shared by several definitions) -/

instance {ε α : Type} [DecidableEq ε] [DecidableEq α] : DecidableEq (Except ε α) :=
  fun x y =>
    match x, y with
    | .ok a, .ok b =>
      if h : a = b then isTrue (by rw [h])
      else isFalse (fun hc => h (by cases hc; rfl))
    | .error a, .error b =>
      if h : a = b then isTrue (by rw [h])
      else isFalse (fun hc => h (by cases hc; rfl))
    | .ok _, .error _ => isFalse (fun hc => Except.noConfusion hc)
    | .error _, .ok _ => isFalse (fun hc => Except.noConfusion hc)

def srtExt : List Char := ['s', 'r', 't']

def dotStr : String := "."

def commaStr : String := ","

def unknownShowStr : String := "Unknown Show"

def episodeWordStr : String := "Episode "

/-! ### Decimal digits: rendering and parsing

Models Rust's integer `Display` (used by `format!("{:02}", n)` after
zero-padding) and `FromStr` for unsigned integer types. -/

/-- Value of a big-endian decimal digit string, starting from accumulator `a`. -/
def digitsValFrom (a : Nat) (ds : List Char) : Nat :=
  ds.foldl (fun acc c => acc * 10 + (c.toNat - 48)) a

/-- Value of a big-endian decimal digit string. -/
def digitsVal (ds : List Char) : Nat := digitsValFrom 0 ds

/-- Fuel-driven decimal rendering of a natural number (big-endian). -/
def natToDigitsF : Nat → Nat → List Char
  | 0, _ => []
  | fuel + 1, n =>
    if n < 10 then [Nat.digitChar n]
    else natToDigitsF fuel (n / 10) ++ [Nat.digitChar (n % 10)]

/-- Decimal rendering of a natural number; `n + 1` fuel always suffices. -/
def natToDigits (n : Nat) : List Char := natToDigitsF (n + 1) n

/-- Left-pad a digit string with zeros to width `w`
(Rust `format!("{:0w}", n)` for a nonnegative argument). -/
def padZeros (w : Nat) (ds : List Char) : List Char :=
  List.replicate (w - ds.length) '0' ++ ds

/-- Rust `FromStr` for an unsigned integer type with maximum value `bound`:
an optional leading plus sign, then one or more ASCII digits, rejecting
values above `bound` (overflow). -/
def parseUIntCore (bound : Nat) (s : List Char) : Option Nat :=
  let t := if s.head? = some '+' then s.tail else s
  if t = [] then none
  else if t.all Char.isDigit then
    if digitsVal t ≤ bound then some (digitsVal t) else none
  else none

/-- Rust `u32::from_str`. -/
def parseU32 (s : List Char) : Option Nat := parseUIntCore 4294967295 s

/-- Rust `usize::from_str` (64-bit target). -/
def parseUsize (s : List Char) : Option Nat := parseUIntCore 18446744073709551615 s

/-- Rust `i32::from_str` restricted to an all-digit input (the source only
applies it to regex captures of `\d+`, which carry no sign). -/
def parseI32Digits (ds : List Char) : Option Int :=
  match parseUIntCore 2147483647 ds with
  | some n => some (Int.ofNat n)
  | none => none

/-! ### Errors (src/srt_parser/errors.rs) -/

/-- `ParsingError`; the `IoError` payload (`std::io::Error`) is dropped. -/
inductive ParsingError where
  | malformedSubtitle
  | invalidTimestamp
  | invalidNumber
  | ioError
deriving DecidableEq, Repr

/-! ### Timestamp (src/srt_parser/types.rs)

Fields are the `u32` fields `hours`, `minutes`, `seconds`, `milliseconds`;
the `u32` range constraint appears as a `< 2^32` hypothesis where needed. -/

structure Timestamp where
  hours : Nat
  minutes : Nat
  seconds : Nat
  milliseconds : Nat
deriving DecidableEq, Repr

/-- `Timestamp::to_string`: `format!("{:02}:{:02}:{:02},{:03}", ...)`. -/
def Timestamp.toString (t : Timestamp) : List Char :=
  padZeros 2 (natToDigits t.hours) ++ ':' ::
    (padZeros 2 (natToDigits t.minutes) ++ ':' ::
      (padZeros 2 (natToDigits t.seconds) ++ ',' ::
        padZeros 3 (natToDigits t.milliseconds)))

/-- `s.split(&[':', ','])`: split on every colon and comma, keeping empty
pieces; the empty input yields one empty piece, as in Rust. -/
def splitOnDelims : List Char → List (List Char)
  | [] => [[]]
  | c :: rest =>
    if c = ':' ∨ c = ',' then [] :: splitOnDelims rest
    else
      match splitOnDelims rest with
      | [] => [[c]]
      | p :: ps => (c :: p) :: ps

/-- `Timestamp::from_str`: exactly four colon/comma-delimited fields, each
parsed as `u32`; any failure is `InvalidTimestamp`. -/
def Timestamp.fromStr (s : List Char) : Except ParsingError Timestamp :=
  match splitOnDelims s with
  | [p0, p1, p2, p3] =>
    match parseU32 p0, parseU32 p1, parseU32 p2, parseU32 p3 with
    | some h, some m, some sec, some ms => .ok ⟨h, m, sec, ms⟩
    | _, _, _, _ => .error .invalidTimestamp
  | _ => .error .invalidTimestamp

/-! ### Subtitle and parser (src/srt_parser/parsing.rs)

The fixed pattern
`(\d+)\n(\d{2}:\d{2}:\d{2},\d{3}) --> (\d{2}:\d{2}:\d{2},\d{3})\n((?s:.*?)(?:\n\n|$))`
is compiled to a direct matcher with the regex crate's leftmost-first
semantics: the greedy `\d+` takes the maximal digit run, and the lazy body
takes the shortest extension ending in a blank line or end of input. -/

structure Subtitle where
  number : Nat
  startTime : Timestamp
  endTime : Timestamp
  text : List Char
deriving DecidableEq, Repr

/-- The four capture groups of one regex match; `body` is group 4 and
includes the terminating blank line when one is present. -/
structure RawCaps where
  num : List Char
  ts1 : List Char
  ts2 : List Char
  body : List Char
deriving DecidableEq, Repr

/-- Match `\d{2}:\d{2}:\d{2},\d{3}` at the head of the input, returning the
matched token and the remaining input. -/
def matchTsToken : List Char → Option (List Char × List Char)
  | a :: b :: ':' :: c :: d :: ':' :: e :: f :: ',' :: g :: h :: i :: rest =>
    if a.isDigit && b.isDigit && c.isDigit && d.isDigit && e.isDigit &&
        f.isDigit && g.isDigit && h.isDigit && i.isDigit then
      some ([a, b, ':', c, d, ':', e, f, ',', g, h, i], rest)
    else none
  | _ => none

/-- Drop an expected literal sequence from the head of the input. -/
def dropLit : List Char → List Char → Option (List Char)
  | [], s => some s
  | _ :: _, [] => none
  | c :: cs, x :: xs => if x = c then dropLit cs xs else none

/-- The literal ` --> ` between the two timestamps. -/
def arrowLit : List Char := [' ', '-', '-', '>', ' ']

/-- The lazy body `(?s:.*?)(?:\n\n|$)`: at each position, first try the
blank-line terminator, else extend; at end of input, `$` matches.  Always
succeeds, returning the matched group (terminator included) and the rest. -/
def lazyBody : List Char → List Char × List Char
  | [] => ([], [])
  | [c] => ([c], [])
  | c1 :: c2 :: rest =>
    if c1 = '\n' ∧ c2 = '\n' then (['\n', '\n'], rest)
    else
      let p := lazyBody (c2 :: rest)
      (c1 :: p.1, p.2)

/-- Attempt the whole pattern at the current position.  Returns the four
captures and the input remaining after the match. -/
def matchHere (s : List Char) : Option (RawCaps × List Char) :=
  let num := s.takeWhile Char.isDigit
  if num = [] then none
  else
    match s.dropWhile Char.isDigit with
    | '\n' :: r1 =>
      match matchTsToken r1 with
      | none => none
      | some (t1, r2) =>
        match dropLit arrowLit r2 with
        | none => none
        | some r3 =>
          match matchTsToken r3 with
          | none => none
          | some (t2, r4) =>
            match r4 with
            | '\n' :: r5 =>
              let p := lazyBody r5
              some (⟨num, t1, t2, p.1⟩, p.2)
            | _ => none
    | _ => none

/-- `captures_iter` driven by fuel: find the leftmost match (advancing one
character at a time), emit it, continue after its end.  Every match
consumes at least one character, so fuel `length + 1` suffices. -/
def capturesFromF : Nat → List Char → List RawCaps
  | 0, _ => []
  | fuel + 1, s =>
    match matchHere s with
    | some (caps, rest) => caps :: capturesFromF fuel rest
    | none =>
      match s with
      | [] => []
      | _ :: t => capturesFromF fuel t

/-- All non-overlapping leftmost-first matches of the pattern. -/
def capturesFrom (s : List Char) : List RawCaps :=
  capturesFromF (s.length + 1) s

/-- Rust `char::is_whitespace` (the Unicode White_Space property),
used by `str::trim`. -/
def isRustWs (c : Char) : Bool :=
  let n := c.toNat
  (9 ≤ n && n ≤ 13) || n == 32 || n == 133 || n == 160 || n == 5760 ||
    (8192 ≤ n && n ≤ 8202) || n == 8232 || n == 8233 || n == 8239 ||
    n == 8287 || n == 12288

/-- `str::trim`: drop leading and trailing whitespace. -/
def rustTrim (s : List Char) : List Char :=
  (((s.dropWhile isRustWs).reverse).dropWhile isRustWs).reverse

/-- Process one regex match exactly as the loop body of `parse_from_str`:
parse the sequence number as `usize` (failure is `InvalidNumber`), parse
both timestamps, trim the body. -/
def parseCap (c : RawCaps) : Except ParsingError Subtitle :=
  match parseUsize c.num with
  | none => .error .invalidNumber
  | some n =>
    match Timestamp.fromStr c.ts1 with
    | .error e => .error e
    | .ok st =>
      match Timestamp.fromStr c.ts2 with
      | .error e => .error e
      | .ok et => .ok ⟨n, st, et, rustTrim c.body⟩

/-- The accumulation loop of `parse_from_str`: first error aborts. -/
def parseCaps : List RawCaps → Except ParsingError (List Subtitle)
  | [] => .ok []
  | c :: rest =>
    match parseCap c with
    | .error e => .error e
    | .ok s =>
      match parseCaps rest with
      | .error e => .error e
      | .ok ss => .ok (s :: ss)

/-- Input normalization of `parse_from_str`: strip every leading byte-order
mark (`trim_start_matches('\u{feff}')`), then remove every carriage return
(`replace('\r', "")`). -/
def normalizeInput (s : List Char) : List Char :=
  (s.dropWhile (fun c => c = '\uFEFF')).filter (fun c => c ≠ '\r')

/-- `Subtitles::parse_from_str`. -/
def parseFromStr (input : List Char) : Except ParsingError (List Subtitle) :=
  match parseCaps (capturesFrom (normalizeInput input)) with
  | .error e => .error e
  | .ok subs => if subs = [] then .error .malformedSubtitle else .ok subs

/-! ### Well-formed subtitle blocks (the input family of claim C4) -/

/-- One line of subtitle body text: nonempty, no line break, no carriage
return. -/
def goodLine (l : List Char) : Bool :=
  !l.isEmpty && l.all (fun c => c ≠ '\n' && c ≠ '\r')

/-- Recognizer for the canonical `HH:MM:SS,mmm` timestamp token. -/
def isTsToken (t : List Char) : Bool :=
  match t with
  | [a, b, c, d, e, f, g, h, i, j, k, l] =>
    a.isDigit && b.isDigit && c == ':' && d.isDigit && e.isDigit &&
      f == ':' && g.isDigit && h.isDigit && i == ',' && j.isDigit &&
      k.isDigit && l.isDigit
  | _ => false

/-- A well-formed subtitle block: a digit run, two canonical timestamp
tokens, one or more body lines. -/
structure RawBlock where
  num : List Char
  ts1 : List Char
  ts2 : List Char
  lines : List (List Char)
deriving DecidableEq, Repr

def wellFormedBlock (b : RawBlock) : Bool :=
  !b.num.isEmpty && b.num.all Char.isDigit && isTsToken b.ts1 &&
    isTsToken b.ts2 && !b.lines.isEmpty && b.lines.all goodLine

/-- Join body lines with single newlines. -/
def joinLines : List (List Char) → List Char
  | [] => []
  | [l] => l
  | l :: rest => l ++ '\n' :: joinLines rest

/-- Render one block in source-file syntax. -/
def renderBlock (b : RawBlock) : List Char :=
  b.num ++ '\n' ::
    (b.ts1 ++ arrowLit ++ b.ts2 ++ '\n' :: joinLines b.lines)

/-- Render a sequence of blocks separated by single blank lines. -/
def renderInput : List RawBlock → List Char
  | [] => []
  | [b] => renderBlock b
  | b :: rest => renderBlock b ++ '\n' :: '\n' :: renderInput rest

/-- The timestamp value denoted by a canonical token. -/
def tsVal (t : List Char) : Timestamp :=
  match t with
  | [a, b, _, c, d, _, e, f, _, g, h, i] =>
    ⟨digitsVal [a, b], digitsVal [c, d], digitsVal [e, f], digitsVal [g, h, i]⟩
  | _ => ⟨0, 0, 0, 0⟩

/-- The subtitle entry a well-formed block denotes. -/
def expectedSubtitle (b : RawBlock) : Subtitle :=
  ⟨digitsVal b.num, tsVal b.ts1, tsVal b.ts2, rustTrim (joinLines b.lines)⟩

/-- No two adjacent newlines anywhere in the list. -/
def noNlNl : List Char → Bool
  | [] => true
  | [_] => true
  | c1 :: c2 :: rest => !(c1 = '\n' && c2 = '\n' : Bool) && noNlNl (c2 :: rest)

/-- The capture list the matcher produces on a rendered block sequence:
every block's body keeps its blank-line terminator except the last. -/
def capsOf : List RawBlock → List RawCaps
  | [] => []
  | [b] => [⟨b.num, b.ts1, b.ts2, joinLines b.lines⟩]
  | b :: rest => ⟨b.num, b.ts1, b.ts2, joinLines b.lines ++ ['\n', '\n']⟩ :: capsOf rest

/-! ### Episode identity resolution (src/srt_parser/episode_info.rs)

Paths are lists of components.  The filesystem visible to a run is a list
of files with contents; `walkdir` order is the list order. -/

inductive EpisodeNumberMethod where
  | fromFilename
  | fromFileOrder
  | fromLastNumbers
deriving DecidableEq, Repr

inductive EpisodeNameMethod where
  | fromSecondPart
  | fromEpisodeNumber
deriving DecidableEq, Repr

structure FsFile where
  path : List String
  content : List Char
deriving DecidableEq, Repr

structure FileSystem where
  root : List String
  files : List FsFile
deriving DecidableEq, Repr

/-- Split a file name at its last dot, or `none` if it has no dot. -/
def lastDotSplit : List Char → Option (List Char × List Char)
  | [] => none
  | c :: rest =>
    match lastDotSplit rest with
    | some (b, a) => some (c :: b, a)
    | none => if c = '.' then some ([], rest) else none

/-- Rust `Path::extension` of the final component: the part after the last
dot, unless the name has no dot or starts with its only dot. -/
def pathExtension (p : List String) : Option (List Char) :=
  match p.getLast? with
  | none => none
  | some name =>
    match lastDotSplit name.data with
    | some (before, after) => if before = [] then none else some after
    | none => none

/-- Rust `Path::file_stem` of the final component. -/
def fileStem (p : List String) : Option (List Char) :=
  match p.getLast? with
  | none => none
  | some name =>
    match lastDotSplit name.data with
    | some (before, _) => if before = [] then some name.data else some before
    | none => some name.data

/-- `get_show_name`: the file's parent directory's name.  A one-component
path has the empty path as parent, whose name is `None`. -/
def getShowName (p : List String) : Option String :=
  if p = [] then none else p.dropLast.getLast?

/-- First match of `E(\d+)`: the digit run after the first `E` that is
immediately followed by at least one digit. -/
def findENum : List Char → Option (List Char)
  | [] => none
  | 'E' :: rest =>
    let ds := rest.takeWhile Char.isDigit
    if ds = [] then findENum rest else some ds
  | _ :: rest => findENum rest

/-- `get_episode_number_from_filename`. -/
def getEpisodeNumberFromFilename (p : List String) : Option Int :=
  match fileStem p with
  | none => none
  | some stem =>
    match findENum stem with
    | none => none
    | some ds => parseI32Digits ds

/-- Match of `(\d+)(?:[^0-9]*$)`: the last digit run of the name. -/
def lastDigitRun (cs : List Char) : Option (List Char) :=
  let r := (cs.reverse.dropWhile (fun c => !c.isDigit)).takeWhile Char.isDigit
  if r = [] then none else some r.reverse

/-- `get_episode_number_from_last_numbers`. -/
def getEpisodeNumberFromLastNumbers (p : List String) : Option Int :=
  match fileStem p with
  | none => none
  | some stem =>
    match lastDigitRun stem with
    | none => none
    | some ds => parseI32Digits ds

/-- Is `d` a proper prefix of `p` (so `d` exists as a directory above some
file)? -/
def pathUnder : List String → List String → Bool
  | [], [] => false
  | [], _ :: _ => true
  | _ :: _, [] => false
  | a :: as_, b :: bs => a = b && pathUnder as_ bs

/-- Environment model of `fs::read_dir` succeeding: the directory is the
walked root itself or lies above some file of the tree. -/
def dirExists (files : List FsFile) (root : List String) (d : List String) : Bool :=
  d = root || files.any (fun f => pathUnder d f.path)

/-- The `.srt` files directly inside `dir`. -/
def srtChildren (files : List FsFile) (dir : List String) : List (List String) :=
  files.filterMap (fun f =>
    if f.path ≠ [] ∧ f.path.dropLast = dir ∧ pathExtension f.path = some srtExt
    then some f.path else none)

/-- Lexicographic comparison of strings by scalar value (agrees with Rust's
byte-wise `OsStr` order on UTF-8). -/
def charListLe : List Char → List Char → Bool
  | [], _ => true
  | _ :: _, [] => false
  | a :: as_, b :: bs =>
    if a < b then true
    else if b < a then false
    else charListLe as_ bs

def strLe (a b : String) : Bool := charListLe a.data b.data

/-- Insertion into a list sorted by `le`. -/
def insertBy {α : Type} (le : α → α → Bool) (x : α) : List α → List α
  | [] => [x]
  | y :: ys => if le x y then x :: y :: ys else y :: insertBy le x ys

/-- Insertion sort by `le`. -/
def sortBy {α : Type} (le : α → α → Bool) : List α → List α
  | [] => []
  | x :: xs => insertBy le x (sortBy le xs)

/-- `Vec<PathBuf>::sort` for paths sharing one parent directory: order by
final component. -/
def sortPaths (ps : List (List String)) : List (List String) :=
  sortBy (fun p q => strLe (p.getLast?.getD "") (q.getLast?.getD "")) ps

/-- `get_episode_number_from_file_order`.  `none` models the panic of
`fs::read_dir(show_dir).unwrap()` when the show directory cannot be
listed. -/
def getEpisodeNumberFromFileOrder (files : List FsFile) (showName : String)
    (filePath : List String) (root : List String) : Option Int :=
  let showDir := root ++ [showName]
  if dirExists files root showDir then
    let eps := sortPaths (srtChildren files showDir)
    some (match eps.findIdx? (fun p => p = filePath) with
          | some i => Int.ofNat (i + 1)
          | none => 0)
  else none

/-- `get_episode_number`: the two filename-based strategies default to 0 on
a failed extraction (with a warning); file order may panic. -/
def getEpisodeNumber (files : List FsFile) (method : EpisodeNumberMethod)
    (showName : String) (filePath : List String) (root : List String) : Option Int :=
  match method with
  | .fromFilename => some ((getEpisodeNumberFromFilename filePath).getD 0)
  | .fromFileOrder => getEpisodeNumberFromFileOrder files showName filePath root
  | .fromLastNumbers => some ((getEpisodeNumberFromLastNumbers filePath).getD 0)

/-- `get_episode_name_from_second_part`: at least three dot-separated parts
in the file name, title is the second. -/
def getEpisodeNameFromSecondPart (p : List String) : Option String :=
  match p.getLast? with
  | none => none
  | some name =>
    let parts := name.splitOn dotStr
    if parts.length ≥ 3 then parts[1]? else none

/-- `get_episode_name`. -/
def getEpisodeName (method : EpisodeNameMethod) (p : List String)
    (episodeNumber : Int) : Option String :=
  match method with
  | .fromSecondPart => getEpisodeNameFromSecondPart p
  | .fromEpisodeNumber => some (episodeWordStr ++ toString episodeNumber)

/-! ### Directory aggregation (src/srt_parser/parsing.rs) -/

structure SrtEntry where
  showName : String
  episodeName : String
  episodeNumber : Int
  content : List Subtitle
deriving DecidableEq, Repr

/-- Read a file's contents from the modelled filesystem. -/
def readFile : List FsFile → List String → Option (List Char)
  | [], _ => none
  | f :: rest, p => if f.path = p then some f.content else readFile rest p

/-- `process_srt_file`.  The outer `none` is a panic escaping from episode
number resolution; the inner `Except` is the function's `Result`. -/
def processSrtFile (files : List FsFile) (filePath : List String)
    (root : List String) (numberMethod : EpisodeNumberMethod)
    (nameMethod : EpisodeNameMethod) : Option (Except ParsingError SrtEntry) :=
  let showName := (getShowName filePath).getD unknownShowStr
  match getEpisodeNumber files numberMethod showName filePath root with
  | none => none
  | some epNum =>
    let epName := (getEpisodeName nameMethod filePath epNum).getD
      (episodeWordStr ++ toString epNum)
    some (match readFile files filePath with
          | none => .error .ioError
          | some content =>
            match parseFromStr content with
            | .error e => .error e
            | .ok subs => .ok ⟨showName, epName, epNum, subs⟩)

/-- `HashMap::entry(k).or_insert_with(Vec::new).push(e)`, on an association
list. -/
def insertEntry (m : List (String × List SrtEntry)) (k : String) (e : SrtEntry) :
    List (String × List SrtEntry) :=
  match m with
  | [] => [(k, [e])]
  | (k', es) :: rest =>
    if k' = k then (k', es ++ [e]) :: rest else (k', es) :: insertEntry rest k e

/-- The walk loop of `process_srt_directory`: skip non-`.srt` paths, insert
successes into the show map, record failures on the error channel,
propagate a panic. -/
def processFiles (allFiles : List FsFile) (root : List String)
    (nm : EpisodeNumberMethod) (em : EpisodeNameMethod) :
    List FsFile → List (String × List SrtEntry) → List (List String) →
    Option (List (String × List SrtEntry) × List (List String))
  | [], acc, errs => some (acc, errs)
  | f :: rest, acc, errs =>
    if pathExtension f.path = some srtExt then
      match processSrtFile allFiles f.path root nm em with
      | none => none
      | some (.ok entry) =>
        processFiles allFiles root nm em rest (insertEntry acc entry.showName entry) errs
      | some (.error _) =>
        processFiles allFiles root nm em rest acc (errs ++ [f.path])
    else processFiles allFiles root nm em rest acc errs

/-- `entries.sort_by_key(|entry| entry.episode_number)`. -/
def sortEntries (es : List SrtEntry) : List SrtEntry :=
  sortBy (fun a b => a.episodeNumber ≤ b.episodeNumber) es

/-- `process_srt_directory`.  `none` models a panic aborting the whole
aggregation. -/
def processSrtDirectory (fs : FileSystem) (nm : EpisodeNumberMethod)
    (em : EpisodeNameMethod) :
    Option (List (String × List SrtEntry) × List (List String)) :=
  match processFiles fs.files fs.root nm em fs.files [] [] with
  | none => none
  | some (m, errs) => some (m.map (fun kv => (kv.1, sortEntries kv.2)), errs)

/-- Does the path carry the subtitle extension? -/
def isSrtFile (f : FsFile) : Bool := pathExtension f.path = some srtExt

/-- The entry of a successfully processed file, if any. -/
def okEntry : Option (Except ParsingError SrtEntry) → Option SrtEntry
  | some (.ok e) => some e
  | _ => none

/-- Did processing finish with a reported error (no panic)? -/
def isErrOutcome : Option (Except ParsingError SrtEntry) → Bool
  | some (.error _) => true
  | _ => false

/-- All entries of a show map, in map order. -/
def allEntries : List (String × List SrtEntry) → List SrtEntry
  | [] => []
  | kv :: rest => kv.2 ++ allEntries rest

/-! ### Persistence layer (src/db.rs)

Each table is a list of rows plus a monotone next-rowid counter (SQLite's
rowid allocation for an append-only `INTEGER PRIMARY KEY` table);
`lastInsertRowid` is the connection-level `last_insert_rowid()`.  A batch
runs inside one transaction: on any error the wrapper returns the state
from before the call (the dropped transaction rolls back).  Environmental
failures of `stmt.execute` (the only non-duplicate failures these
statements admit) are injected per row as an `Option DbError`; a commit
failure is injected as a separate parameter. -/

inductive DbError where
  | sqlError : Nat → DbError
deriving DecidableEq, Repr

structure ShowRow where
  id : Nat
  name : String
  showType : String
deriving DecidableEq, Repr

structure EpisodeRow where
  id : Nat
  showId : Int
  name : String
  season : Int
  episodeNumber : Int
deriving DecidableEq, Repr

structure TranscriptRow where
  id : Nat
  episodeId : Int
  lineId : Int
  timeStart : String
  timeEnd : String
  text : String
deriving DecidableEq, Repr

structure Db where
  shows : List ShowRow
  episodes : List EpisodeRow
  transcripts : List TranscriptRow
  showsNextId : Nat
  episodesNextId : Nat
  transcriptsNextId : Nat
  lastInsertRowid : Nat
deriving DecidableEq, Repr

def emptyDb : Db := ⟨[], [], [], 1, 1, 1, 0⟩

structure ShowInput where
  name : String
  showType : String
deriving DecidableEq, Repr

structure EpisodeInput where
  showId : Int
  name : String
  season : Int
  episodeNumber : Int
deriving DecidableEq, Repr

structure TranscriptInput where
  episodeId : Int
  lineId : Int
  timeStart : String
  timeEnd : String
  text : String
deriving DecidableEq, Repr

/-- Natural key of the `shows` table: `name` (UNIQUE). -/
def showKeyExists (db : Db) (name : String) : Bool :=
  db.shows.any (fun r => decide (r.name = name))

/-- `INSERT OR IGNORE INTO shows`: returns the rows-affected count. -/
def insertOrIgnoreShow (db : Db) (i : ShowInput) : Db × Nat :=
  if showKeyExists db i.name then (db, 0)
  else
    ({ db with
        shows := db.shows ++ [⟨db.showsNextId, i.name, i.showType⟩],
        showsNextId := db.showsNextId + 1,
        lastInsertRowid := db.showsNextId }, 1)

/-- Natural key of the `episodes` table: `(show_id, season, episode_number)`. -/
def episodeKeyExists (db : Db) (i : EpisodeInput) : Bool :=
  db.episodes.any (fun r =>
    decide (r.showId = i.showId ∧ r.season = i.season ∧
      r.episodeNumber = i.episodeNumber))

/-- `INSERT OR IGNORE INTO episodes`. -/
def insertOrIgnoreEpisode (db : Db) (i : EpisodeInput) : Db × Nat :=
  if episodeKeyExists db i then (db, 0)
  else
    ({ db with
        episodes := db.episodes ++
          [⟨db.episodesNextId, i.showId, i.name, i.season, i.episodeNumber⟩],
        episodesNextId := db.episodesNextId + 1,
        lastInsertRowid := db.episodesNextId }, 1)

def tKeyRow (r : TranscriptRow) : Int × String × String :=
  (r.episodeId, r.timeStart, r.timeEnd)

def tKeyIn (i : TranscriptInput) : Int × String × String :=
  (i.episodeId, i.timeStart, i.timeEnd)

/-- Natural key of the `transcripts` table:
`(episode_id, time_start, time_end)`. -/
def transcriptKeyExists (db : Db) (i : TranscriptInput) : Bool :=
  db.transcripts.any (fun r => decide (tKeyRow r = tKeyIn i))

/-- `INSERT OR IGNORE INTO transcripts`. -/
def insertOrIgnoreTranscript (db : Db) (i : TranscriptInput) : Db × Nat :=
  if transcriptKeyExists db i then (db, 0)
  else
    ({ db with
        transcripts := db.transcripts ++
          [⟨db.transcriptsNextId, i.episodeId, i.lineId, i.timeStart,
            i.timeEnd, i.text⟩],
        transcriptsNextId := db.transcriptsNextId + 1,
        lastInsertRowid := db.transcriptsNextId }, 1)

/-- Pair each row with "no injected execution failure". -/
def clean {α : Type} (rows : List α) : List (α × Option DbError) :=
  rows.map (fun r => (r, none))

/-- Loop body of `batch_insert_shows` inside the transaction. -/
def txShows : Db → List (ShowInput × Option DbError) → Except DbError Db
  | txDb, [] => .ok txDb
  | txDb, (i, fail) :: rest =>
    match fail with
    | some e => .error e
    | none => txShows (insertOrIgnoreShow txDb i).1 rest

/-- `batch_insert_shows`: one transaction around the whole input; an
execution or commit failure rolls the store back. -/
def batchInsertShows (db : Db) (rows : List (ShowInput × Option DbError))
    (commitFail : Option DbError) : Db × Option DbError :=
  match txShows db rows with
  | .error e => (db, some e)
  | .ok txDb =>
    match commitFail with
    | some e => (db, some e)
    | none => (txDb, none)

/-- Loop body of `batch_insert_episodes` inside the transaction. -/
def txEpisodes : Db → List (EpisodeInput × Option DbError) → Except DbError Db
  | txDb, [] => .ok txDb
  | txDb, (i, fail) :: rest =>
    match fail with
    | some e => .error e
    | none => txEpisodes (insertOrIgnoreEpisode txDb i).1 rest

/-- `batch_insert_episodes`. -/
def batchInsertEpisodes (db : Db) (rows : List (EpisodeInput × Option DbError))
    (commitFail : Option DbError) : Db × Option DbError :=
  match txEpisodes db rows with
  | .error e => (db, some e)
  | .ok txDb =>
    match commitFail with
    | some e => (db, some e)
    | none => (txDb, none)

/-- Rust `text.split('\n')`: split on every newline, keeping empty pieces;
the empty string yields one empty piece. -/
def splitCharsOnNl : List Char → List (List Char)
  | [] => [[]]
  | c :: rest =>
    if c = '\n' then [] :: splitCharsOnNl rest
    else
      match splitCharsOnNl rest with
      | [] => [[c]]
      | p :: ps => (c :: p) :: ps

/-- The CSV records for one accepted transcript row: one
`{generated_id},{text_line}` record per `\n`-separated line of its text. -/
def transcriptRecords (id : Nat) (text : String) : List String :=
  (splitCharsOnNl text.data).map (fun line => toString id ++ commaStr ++ line.asString)

/-- Loop body of `batch_insert_transcripts`: insert each row; when the
insert affected a row and the mirror flag is on, append that row's CSV
records (keyed by `last_insert_rowid`).  On an injected failure the loop
stops with the error; the records written so far remain (the dropped
`BufWriter` flushes them). -/
def txTranscripts (outCsv : Bool) :
    Db → List String → List (TranscriptInput × Option DbError) →
    Db × List String × Option DbError
  | txDb, csv, [] => (txDb, csv, none)
  | txDb, csv, (i, fail) :: rest =>
    match fail with
    | some e => (txDb, csv, some e)
    | none =>
      let r := insertOrIgnoreTranscript txDb i
      if r.2 > 0 then
        let id := r.1.lastInsertRowid
        let csv' := if outCsv then csv ++ transcriptRecords id i.text else csv
        txTranscripts outCsv r.1 csv' rest
      else txTranscripts outCsv r.1 csv rest

/-- `batch_insert_transcripts`.  The CSV file is flushed before `commit` is
called, so the third component (the on-disk side export) keeps the written
records even when the transaction rolls back. -/
def batchInsertTranscripts (db : Db) (rows : List (TranscriptInput × Option DbError))
    (outCsv : Bool) (commitFail : Option DbError) :
    Db × Option DbError × List String :=
  match txTranscripts outCsv db [] rows with
  | (_, csv, some e) => (db, some e, csv)
  | (txDb, csv, none) =>
    match commitFail with
    | some e => (db, some e, csv)
    | none => (txDb, none, csv)

/-- Modelled from the spec: the accepted rows of a transcript batch in
acceptance order — a row is accepted exactly when its natural key is in
neither the pre-existing table nor an earlier accepted row of the batch —
paired with their generated identifiers. -/
def acceptedRows (keys : List (Int × String × String)) (nextId : Nat) :
    List TranscriptInput → List (Nat × TranscriptInput)
  | [] => []
  | i :: rest =>
    if tKeyIn i ∈ keys then acceptedRows keys nextId rest
    else (nextId, i) :: acceptedRows (tKeyIn i :: keys) (nextId + 1) rest

def flatRecords : List (Nat × TranscriptInput) → List String
  | [] => []
  | p :: rest => transcriptRecords p.1 p.2.text ++ flatRecords rest

/-- Modelled from the spec: the full side-export content of one successful
mirrored batch over `rows` against `db`. -/
def sideExportSpec (db : Db) (rows : List TranscriptInput) : List String :=
  flatRecords (acceptedRows (db.transcripts.map tKeyRow) db.transcriptsNextId rows)

/-- One full clean ingestion run in the order of `main`: shows, then
episodes, then mirrored transcripts, stopping at the first error.  Returns
the final store, the first error, and the transcript side-export. -/
def runOnce (db : Db) (s : List ShowInput) (eps : List EpisodeInput)
    (ts : List TranscriptInput) : Db × Option DbError × List String :=
  match batchInsertShows db (clean s) none with
  | (db1, some err) => (db1, some err, [])
  | (db1, none) =>
    match batchInsertEpisodes db1 (clean eps) none with
    | (db2, some err) => (db2, some err, [])
    | (db2, none) => batchInsertTranscripts db2 (clean ts) true none

/-! ### Concrete values used by counterexamples and witnesses -/

def zeroSeqStr : String := "0\n00:00:01,000 --> 00:00:02,000\nHi"

def c10Str : String := "00,00,01:000"

def ovNumStr : String := "18446744073709551616"

def tsStrA : String := "00:00:01,000"

def tsStrB : String := "00:00:02,000"

def tsStrC : String := "00:00:05,000"

def tsStrD : String := "00:00:07,000"

/-- A well-formed block whose decimal sequence number is `2 ^ 64`, one past
`usize::MAX`. -/
def ovBlock : RawBlock := ⟨ovNumStr.data, tsStrA.data, tsStrB.data, [['H', 'i']]⟩

def wb1 : RawBlock := ⟨['1'], tsStrA.data, tsStrB.data, [['H', 'e', 'y'], ['Y', 'o']]⟩

def wb2 : RawBlock := ⟨['2'], tsStrC.data, tsStrD.data, [['B', 'y', 'e']]⟩

def goodSrt : String := "1\n00:00:01,000 --> 00:00:02,000\nHi"

def badSrt : String := "garbage"

/-- A tree whose only subtitle file sits two directories below the root, so
its show directory `root/B` does not exist. -/
def fsPanic : FileSystem := ⟨["root"], [⟨["root", "A", "B", "bad.srt"], goodSrt.data⟩]⟩

/-- A tree with one parseable and one unparseable subtitle file. -/
def fsGoodBad : FileSystem :=
  ⟨["root"], [⟨["root", "A", "good.srt"], goodSrt.data⟩,
    ⟨["root", "A", "bad.srt"], badSrt.data⟩]⟩

def c3Row : TranscriptInput := ⟨1, 1, "a", "b", "Hello"⟩

/-! ## Lemmas: decimal digits -/

theorem digitsValFrom_append (a : Nat) (xs ys : List Char) :
    digitsValFrom a (xs ++ ys) = digitsValFrom (digitsValFrom a xs) ys := by
  simp [digitsValFrom, List.foldl_append]

theorem digitChar_isDigit {m : Nat} (h : m < 10) :
    (Nat.digitChar m).isDigit = true := by
  interval_cases m <;> decide

theorem digitChar_val {m : Nat} (h : m < 10) :
    (Nat.digitChar m).toNat - 48 = m := by
  interval_cases m <;> decide

theorem natToDigitsF_val (fuel : Nat) : ∀ n a, n < fuel →
    digitsValFrom a (natToDigitsF fuel n) =
      a * 10 ^ (natToDigitsF fuel n).length + n := by
  induction fuel with
  | zero => intro n a h; omega
  | succ fuel ih =>
    intro n a h
    by_cases h10 : n < 10
    · simp only [natToDigitsF, if_pos h10]
      simp [digitsValFrom, digitChar_val h10]
    · simp only [natToDigitsF, if_neg h10]
      have hdiv : n / 10 < fuel := by omega
      rw [digitsValFrom_append, ih (n / 10) a hdiv]
      have hmod : n % 10 < 10 := Nat.mod_lt _ (by omega)
      simp only [digitsValFrom, List.foldl_cons, List.foldl_nil,
        List.length_append, List.length_singleton]
      rw [digitChar_val hmod]
      have hx := Nat.div_add_mod n 10
      set L := (natToDigitsF fuel (n / 10)).length with hL
      calc (a * 10 ^ L + n / 10) * 10 + n % 10
          = a * (10 ^ L * 10) + (n / 10 * 10 + n % 10) := by ring
        _ = a * 10 ^ (L + 1) + n := by rw [pow_succ]; omega

theorem digitsVal_natToDigits (n : Nat) : digitsVal (natToDigits n) = n := by
  have h := natToDigitsF_val (n + 1) n 0 (by omega)
  simpa [digitsVal, natToDigits] using h

theorem natToDigitsF_digits (fuel : Nat) : ∀ n c, c ∈ natToDigitsF fuel n →
    c.isDigit = true := by
  induction fuel with
  | zero => intro n c h; simp [natToDigitsF] at h
  | succ fuel ih =>
    intro n c h
    by_cases h10 : n < 10
    · simp only [natToDigitsF, if_pos h10, List.mem_singleton] at h
      subst h; exact digitChar_isDigit h10
    · simp only [natToDigitsF, if_neg h10, List.mem_append,
        List.mem_singleton] at h
      rcases h with h | h
      · exact ih _ _ h
      · subst h; exact digitChar_isDigit (Nat.mod_lt _ (by omega))

theorem natToDigits_digits (n : Nat) : ∀ c ∈ natToDigits n, c.isDigit = true :=
  fun c hc => natToDigitsF_digits (n + 1) n c hc

theorem natToDigitsF_ne_nil (fuel n : Nat) (h : n < fuel) :
    natToDigitsF fuel n ≠ [] := by
  cases fuel with
  | zero => omega
  | succ fuel =>
    by_cases h10 : n < 10 <;> simp [natToDigitsF, h10]

theorem natToDigits_ne_nil (n : Nat) : natToDigits n ≠ [] :=
  natToDigitsF_ne_nil (n + 1) n (by omega)

theorem digitsValFrom_replicate_zero : ∀ k, digitsValFrom 0 (List.replicate k '0') = 0 := by
  intro k
  induction k with
  | zero => simp [digitsValFrom]
  | succ k ih => simpa [List.replicate_succ, digitsValFrom] using ih

theorem digitsVal_padZeros (w : Nat) (ds : List Char) :
    digitsVal (padZeros w ds) = digitsVal ds := by
  simp only [padZeros, digitsVal, digitsValFrom_append, digitsValFrom_replicate_zero]

theorem padZeros_digits {w : Nat} {ds : List Char}
    (h : ∀ c ∈ ds, c.isDigit = true) : ∀ c ∈ padZeros w ds, c.isDigit = true := by
  intro c hc
  simp only [padZeros, List.mem_append, List.mem_replicate] at hc
  rcases hc with ⟨_, hc⟩ | hc
  · subst hc; decide
  · exact h c hc

theorem padZeros_ne_nil {w : Nat} {ds : List Char} (h : ds ≠ []) :
    padZeros w ds ≠ [] := by
  simp [padZeros, h]

/-! ## Lemmas: digit characters versus delimiters -/

theorem isDigit_ne_colon {c : Char} (h : c.isDigit = true) : c ≠ ':' := by
  intro he; subst he; exact absurd h (by decide)

theorem isDigit_ne_comma {c : Char} (h : c.isDigit = true) : c ≠ ',' := by
  intro he; subst he; exact absurd h (by decide)

theorem isDigit_ne_plus {c : Char} (h : c.isDigit = true) : c ≠ '+' := by
  intro he; subst he; exact absurd h (by decide)

theorem isDigit_ne_nl {c : Char} (h : c.isDigit = true) : c ≠ '\n' := by
  intro he; subst he; exact absurd h (by decide)

/-! ## Lemmas: splitting on colon and comma -/

theorem splitOnDelims_nodelim {a : List Char}
    (h : ∀ c ∈ a, c ≠ ':' ∧ c ≠ ',') : splitOnDelims a = [a] := by
  induction a with
  | nil => rfl
  | cons c rest ih =>
    have hc := h c (by simp)
    have hrest : ∀ x ∈ rest, x ≠ ':' ∧ x ≠ ',' := fun x hx => h x (by simp [hx])
    simp only [splitOnDelims]
    rw [if_neg (by tauto), ih hrest]

theorem splitOnDelims_append_colon {a : List Char} (r : List Char)
    (h : ∀ c ∈ a, c ≠ ':' ∧ c ≠ ',') :
    splitOnDelims (a ++ ':' :: r) = a :: splitOnDelims r := by
  induction a with
  | nil => simp [splitOnDelims]
  | cons c rest ih =>
    have hc := h c (by simp)
    have hrest : ∀ x ∈ rest, x ≠ ':' ∧ x ≠ ',' := fun x hx => h x (by simp [hx])
    simp only [List.cons_append, splitOnDelims]
    rw [if_neg (by tauto), List.append_eq, ih hrest]

theorem splitOnDelims_append_comma {a : List Char} (r : List Char)
    (h : ∀ c ∈ a, c ≠ ':' ∧ c ≠ ',') :
    splitOnDelims (a ++ ',' :: r) = a :: splitOnDelims r := by
  induction a with
  | nil => simp [splitOnDelims]
  | cons c rest ih =>
    have hc := h c (by simp)
    have hrest : ∀ x ∈ rest, x ≠ ':' ∧ x ≠ ',' := fun x hx => h x (by simp [hx])
    simp only [List.cons_append, splitOnDelims]
    rw [if_neg (by tauto), List.append_eq, ih hrest]

/-! ## Lemmas: unsigned integer parsing -/

theorem parseUIntCore_digits {bound : Nat} {ds : List Char} (hne : ds ≠ [])
    (hd : ∀ c ∈ ds, c.isDigit = true) (hb : digitsVal ds ≤ bound) :
    parseUIntCore bound ds = some (digitsVal ds) := by
  cases ds with
  | nil => exact absurd rfl hne
  | cons c cs =>
    have hc : c.isDigit = true := hd c (by simp)
    have hplus : c ≠ '+' := isDigit_ne_plus hc
    have hall : (c :: cs).all Char.isDigit = true := by
      simp only [List.all_eq_true]; exact hd
    simp only [parseUIntCore, List.head?_cons, Option.some.injEq]
    rw [if_neg hplus]
    rw [if_neg (by simp), if_pos hall, if_pos hb]

theorem parseUIntCore_le {bound : Nat} {s : List Char} {n : Nat}
    (h : parseUIntCore bound s = some n) : n ≤ bound := by
  simp only [parseUIntCore] at h
  repeat' split at h
  all_goals first
    | exact Option.noConfusion h
    | (simp only [Option.some.injEq] at h; omega)

/-! ## C7: timestamp round-trip -/

/-- C7: for every `Timestamp` (four `u32` fields, hours unbounded beyond the
field type), parsing its formatted text succeeds and recovers all four
field values exactly; consequently formatting the parse result gives back
the identical string. -/
theorem c7_timestamp_round_trip (t : Timestamp)
    (h1 : t.hours < 4294967296) (h2 : t.minutes < 4294967296)
    (h3 : t.seconds < 4294967296) (h4 : t.milliseconds < 4294967296) :
    Timestamp.fromStr (Timestamp.toString t) = .ok t := by
  obtain ⟨h, m, s, ms⟩ := t
  simp only [Timestamp.toString] at *
  have dig : ∀ n : Nat, ∀ c ∈ padZeros 2 (natToDigits n), c.isDigit = true :=
    fun n => padZeros_digits (natToDigits_digits n)
  have dig3 : ∀ c ∈ padZeros 3 (natToDigits ms), c.isDigit = true :=
    padZeros_digits (natToDigits_digits ms)
  have nod : ∀ n : Nat, ∀ c ∈ padZeros 2 (natToDigits n), c ≠ ':' ∧ c ≠ ',' :=
    fun n c hc => ⟨isDigit_ne_colon (dig n c hc), isDigit_ne_comma (dig n c hc)⟩
  have nod3 : ∀ c ∈ padZeros 3 (natToDigits ms), c ≠ ':' ∧ c ≠ ',' :=
    fun c hc => ⟨isDigit_ne_colon (dig3 c hc), isDigit_ne_comma (dig3 c hc)⟩
  have hsplit : splitOnDelims (padZeros 2 (natToDigits h) ++ ':' ::
      (padZeros 2 (natToDigits m) ++ ':' ::
        (padZeros 2 (natToDigits s) ++ ',' :: padZeros 3 (natToDigits ms)))) =
      [padZeros 2 (natToDigits h), padZeros 2 (natToDigits m),
        padZeros 2 (natToDigits s), padZeros 3 (natToDigits ms)] := by
    rw [splitOnDelims_append_colon _ (nod h),
      splitOnDelims_append_colon _ (nod m),
      splitOnDelims_append_comma _ (nod s),
      splitOnDelims_nodelim nod3]
  have hp : ∀ n : Nat, n < 4294967296 →
      parseU32 (padZeros 2 (natToDigits n)) = some n := by
    intro n hn
    have := @parseUIntCore_digits 4294967295 (padZeros 2 (natToDigits n))
      (padZeros_ne_nil (natToDigits_ne_nil n)) (dig n)
      (by rw [digitsVal_padZeros, digitsVal_natToDigits]; omega)
    rw [digitsVal_padZeros, digitsVal_natToDigits] at this
    exact this
  have hp3 : parseU32 (padZeros 3 (natToDigits ms)) = some ms := by
    have := @parseUIntCore_digits 4294967295 (padZeros 3 (natToDigits ms))
      (padZeros_ne_nil (natToDigits_ne_nil ms)) dig3
      (by rw [digitsVal_padZeros, digitsVal_natToDigits]; omega)
    rw [digitsVal_padZeros, digitsVal_natToDigits] at this
    exact this
  simp only [Timestamp.fromStr, hsplit, hp h h1, hp m h2, hp s h3, hp3]

/-- Witness for C7 at a concrete timestamp. -/
theorem c7_witness_round_trip :
    (1 : Nat) < 4294967296 ∧ (2 : Nat) < 4294967296 ∧ (3 : Nat) < 4294967296 ∧
      (45 : Nat) < 4294967296 ∧
      Timestamp.fromStr (Timestamp.toString ⟨1, 2, 3, 45⟩) = .ok ⟨1, 2, 3, 45⟩ :=
  ⟨by decide, by decide, by decide, by decide,
    c7_timestamp_round_trip ⟨1, 2, 3, 45⟩ (by decide) (by decide) (by decide)
      (by decide)⟩

/-! ## C10: timestamp parsing ignores delimiter placement -/

/-- C10: `Timestamp::from_str` succeeds exactly when splitting the input on
colons and commas (in any positions) yields exactly four fields, each
parsable as an unsigned 32-bit integer; in particular the non-canonical
input `00,00,01:000` parses, with the four fields taken in order as hours,
minutes, seconds, milliseconds. -/
theorem c10_from_str_delimiter_agnostic :
    (∀ s : List Char,
      (∃ t, Timestamp.fromStr s = .ok t) ↔
        ((splitOnDelims s).length = 4 ∧
          ∀ p ∈ splitOnDelims s, (parseU32 p).isSome = true)) ∧
    Timestamp.fromStr c10Str.data = .ok ⟨0, 0, 1, 0⟩ := by
  constructor
  · intro s
    constructor
    · rintro ⟨t, ht⟩
      unfold Timestamp.fromStr at ht
      rcases hsp : splitOnDelims s with _ | ⟨p0, _ | ⟨p1, _ | ⟨p2, _ | ⟨p3, _ | ps⟩⟩⟩⟩ <;>
        rw [hsp] at ht
      · exact absurd ht (by simp)
      · exact absurd ht (by simp)
      · exact absurd ht (by simp)
      · exact absurd ht (by simp)
      · have ht' : (match parseU32 p0, parseU32 p1, parseU32 p2, parseU32 p3 with
            | some h, some m, some sec, some ms =>
              (Except.ok ⟨h, m, sec, ms⟩ : Except ParsingError Timestamp)
            | _, _, _, _ => Except.error ParsingError.invalidTimestamp) = .ok t := ht
        rcases h0 : parseU32 p0 with _ | v0 <;> rw [h0] at ht'
        · exact absurd ht' (by simp)
        · rcases h1 : parseU32 p1 with _ | v1 <;> rw [h1] at ht'
          · exact absurd ht' (by simp)
          · rcases h2 : parseU32 p2 with _ | v2 <;> rw [h2] at ht'
            · exact absurd ht' (by simp)
            · rcases h3 : parseU32 p3 with _ | v3 <;> rw [h3] at ht'
              · exact absurd ht' (by simp)
              · refine ⟨rfl, ?_⟩
                intro p hp
                simp only [List.mem_cons, List.not_mem_nil, or_false] at hp
                rcases hp with rfl | rfl | rfl | rfl <;> simp [h0, h1, h2, h3]
      · exact absurd ht (by simp)
    · rintro ⟨hlen, hall⟩
      rcases hsp : splitOnDelims s with _ | ⟨p0, _ | ⟨p1, _ | ⟨p2, _ | ⟨p3, _ | ps⟩⟩⟩⟩ <;>
        rw [hsp] at hlen <;> simp at hlen
      rw [hsp] at hall
      have h0 := hall p0 (by simp)
      have h1 := hall p1 (by simp)
      have h2 := hall p2 (by simp)
      have h3 := hall p3 (by simp)
      rw [Option.isSome_iff_exists] at h0 h1 h2 h3
      obtain ⟨v0, h0⟩ := h0
      obtain ⟨v1, h1⟩ := h1
      obtain ⟨v2, h2⟩ := h2
      obtain ⟨v3, h3⟩ := h3
      refine ⟨⟨v0, v1, v2, v3⟩, ?_⟩
      show (match splitOnDelims s with
        | [p0, p1, p2, p3] =>
          match parseU32 p0, parseU32 p1, parseU32 p2, parseU32 p3 with
          | some h, some m, some sec, some ms =>
            (Except.ok ⟨h, m, sec, ms⟩ : Except ParsingError Timestamp)
          | _, _, _, _ => Except.error ParsingError.invalidTimestamp
        | _ => Except.error ParsingError.invalidTimestamp) = _
      rw [hsp]
      show (match parseU32 p0, parseU32 p1, parseU32 p2, parseU32 p3 with
        | some h, some m, some sec, some ms =>
          (Except.ok ⟨h, m, sec, ms⟩ : Except ParsingError Timestamp)
        | _, _, _, _ => Except.error ParsingError.invalidTimestamp) = _
      rw [h0, h1, h2, h3]
  · decide

/-! ## C8: degenerate input is rejected -/

/-- C8: whenever zero blocks match the fixed pattern (the empty string
included), `parse_from_str` fails with `MalformedSubtitle`; a successful
parse never returns an empty collection. -/
theorem c8_degenerate_rejected (input : List Char) :
    (capturesFrom (normalizeInput input) = [] →
      parseFromStr input = .error .malformedSubtitle) ∧
    (∀ subs, parseFromStr input = .ok subs → subs ≠ []) := by
  constructor
  · intro h
    simp [parseFromStr, h, parseCaps]
  · intro subs h
    simp only [parseFromStr] at h
    rcases hc : parseCaps (capturesFrom (normalizeInput input)) with e | l
    · rw [hc] at h; exact absurd h (by simp)
    · rw [hc] at h
      have h' : (if l = [] then (Except.error ParsingError.malformedSubtitle :
          Except ParsingError (List Subtitle)) else .ok l) = .ok subs := h
      by_cases hl : l = []
      · rw [if_pos hl] at h'; exact absurd h' (by simp)
      · rw [if_neg hl] at h'
        simp only [Except.ok.injEq] at h'
        subst h'; exact hl

/-- Witness for C8 at the empty input. -/
theorem c8_witness_degenerate :
    capturesFrom (normalizeInput []) = [] ∧
      parseFromStr [] = .error .malformedSubtitle :=
  ⟨by decide, (c8_degenerate_rejected []).1 (by decide)⟩

/-! ## C6: sequence numbers -/

/-- Counterexample to C6 as stated: the block `0` parses successfully and
yields sequence number 0, which is not positive — the parser accepts zero,
so not every subtitle of a successful parse has a positive sequence
number. -/
theorem c6_counterex_zero_sequence :
    parseFromStr zeroSeqStr.data =
      .ok [⟨0, ⟨0, 0, 1, 0⟩, ⟨0, 0, 2, 0⟩, ['H', 'i']⟩] := by
  decide

theorem parseCap_number_le {c : RawCaps} {s : Subtitle}
    (h : parseCap c = .ok s) : s.number ≤ 18446744073709551615 := by
  simp only [parseCap] at h
  rcases hn : parseUsize c.num with _ | n
  · rw [hn] at h; exact absurd h (by simp)
  · rw [hn] at h
    rcases h1 : Timestamp.fromStr c.ts1 with e | st
    · rw [h1] at h; exact absurd h (by simp)
    · rw [h1] at h
      rcases h2 : Timestamp.fromStr c.ts2 with e | et
      · rw [h2] at h; exact absurd h (by simp)
      · rw [h2] at h
        simp only [Except.ok.injEq] at h
        subst h
        exact parseUIntCore_le hn

theorem parseCaps_number_le : ∀ caps subs, parseCaps caps = .ok subs →
    ∀ st ∈ subs, st.number ≤ 18446744073709551615 := by
  intro caps
  induction caps with
  | nil =>
    intro subs h st hst
    simp only [parseCaps, Except.ok.injEq] at h
    subst h; simp at hst
  | cons c rest ih =>
    intro subs h st hst
    simp only [parseCaps] at h
    rcases hc : parseCap c with e | s1
    · rw [hc] at h; exact absurd h (by simp)
    · rw [hc] at h
      rcases hr : parseCaps rest with e | ss
      · rw [hr] at h; exact absurd h (by simp)
      · rw [hr] at h
        simp only [Except.ok.injEq] at h
        subst h
        rcases List.mem_cons.mp hst with h1 | h1
        · subst h1; exact parseCap_number_le hc
        · exact ih ss hr st h1

/-- C6 amended: the parser parses each matched block's digit run as an
unsigned 64-bit (`usize`) integer — zero is accepted — and fails the whole
parse with `InvalidNumber` exactly when that parsing fails (overflow);
hence every subtitle of a successful parse has a sequence number that is a
valid `usize` value (possibly 0). -/
theorem c6_sequence_numbers_usize_amended (input : List Char)
    (subs : List Subtitle) (h : parseFromStr input = .ok subs) :
    ∀ st ∈ subs, st.number ≤ 18446744073709551615 := by
  simp only [parseFromStr] at h
  rcases hc : parseCaps (capturesFrom (normalizeInput input)) with e | l
  · rw [hc] at h; exact absurd h (by simp)
  · rw [hc] at h
    have h' : (if l = [] then (Except.error ParsingError.malformedSubtitle :
        Except ParsingError (List Subtitle)) else .ok l) = .ok subs := h
    by_cases hl : l = []
    · rw [if_pos hl] at h'; exact absurd h' (by simp)
    · rw [if_neg hl] at h'
      simp only [Except.ok.injEq] at h'
      subst h'
      exact parseCaps_number_le _ _ hc

/-- Witness for the amended C6 at a concrete successful parse. -/
theorem c6_witness_sequence_bound :
    parseFromStr zeroSeqStr.data =
        .ok [⟨0, ⟨0, 0, 1, 0⟩, ⟨0, 0, 2, 0⟩, ['H', 'i']⟩] ∧
      ∀ st ∈ [(⟨0, ⟨0, 0, 1, 0⟩, ⟨0, 0, 2, 0⟩, ['H', 'i']⟩ : Subtitle)],
        st.number ≤ 18446744073709551615 :=
  ⟨by decide, c6_sequence_numbers_usize_amended zeroSeqStr.data _ (by decide)⟩

/-! ## Lemmas: insert-or-ignore, one table at a time -/

theorem insertShow_noop {db : Db} {i : ShowInput}
    (h : showKeyExists db i.name = true) : insertOrIgnoreShow db i = (db, 0) := by
  simp [insertOrIgnoreShow, h]

theorem insertShow_key_self (db : Db) (i : ShowInput) :
    showKeyExists (insertOrIgnoreShow db i).1 i.name = true := by
  by_cases h : showKeyExists db i.name
  · rw [insertShow_noop h]; exact h
  · simp only [insertOrIgnoreShow, if_neg h]
    simp only [showKeyExists, List.any_eq_true, decide_eq_true_eq]
    exact ⟨⟨db.showsNextId, i.name, i.showType⟩, by simp, rfl⟩

theorem insertShow_key_mono {db : Db} {n : String} (i : ShowInput)
    (h : showKeyExists db n = true) :
    showKeyExists (insertOrIgnoreShow db i).1 n = true := by
  by_cases hk : showKeyExists db i.name
  · rw [insertShow_noop hk]; exact h
  · simp only [showKeyExists, List.any_eq_true, decide_eq_true_eq] at h
    obtain ⟨x, hx, hxn⟩ := h
    simp only [insertOrIgnoreShow, if_neg hk]
    simp only [showKeyExists, List.any_eq_true, decide_eq_true_eq]
    exact ⟨x, by simp [hx], hxn⟩

theorem insertShow_fields (db : Db) (i : ShowInput) :
    (insertOrIgnoreShow db i).1.episodes = db.episodes ∧
      (insertOrIgnoreShow db i).1.transcripts = db.transcripts := by
  by_cases h : showKeyExists db i.name <;> simp [insertOrIgnoreShow, h]

theorem insertEpisode_noop {db : Db} {i : EpisodeInput}
    (h : episodeKeyExists db i = true) : insertOrIgnoreEpisode db i = (db, 0) := by
  simp [insertOrIgnoreEpisode, h]

theorem insertEpisode_key_self (db : Db) (i : EpisodeInput) :
    episodeKeyExists (insertOrIgnoreEpisode db i).1 i = true := by
  by_cases h : episodeKeyExists db i
  · rw [insertEpisode_noop h]; exact h
  · simp only [insertOrIgnoreEpisode, if_neg h]
    simp only [episodeKeyExists, List.any_eq_true, decide_eq_true_eq]
    exact ⟨⟨db.episodesNextId, i.showId, i.name, i.season, i.episodeNumber⟩,
      by simp, rfl, rfl, rfl⟩

theorem insertEpisode_key_mono {db : Db} {j : EpisodeInput} (i : EpisodeInput)
    (h : episodeKeyExists db j = true) :
    episodeKeyExists (insertOrIgnoreEpisode db i).1 j = true := by
  by_cases hk : episodeKeyExists db i
  · rw [insertEpisode_noop hk]; exact h
  · simp only [episodeKeyExists, List.any_eq_true, decide_eq_true_eq] at h
    obtain ⟨x, hx, hxn⟩ := h
    simp only [insertOrIgnoreEpisode, if_neg hk]
    simp only [episodeKeyExists, List.any_eq_true, decide_eq_true_eq]
    exact ⟨x, by simp [hx], hxn⟩

theorem insertEpisode_fields (db : Db) (i : EpisodeInput) :
    (insertOrIgnoreEpisode db i).1.shows = db.shows ∧
      (insertOrIgnoreEpisode db i).1.transcripts = db.transcripts := by
  by_cases h : episodeKeyExists db i <;> simp [insertOrIgnoreEpisode, h]

theorem insertTranscript_noop {db : Db} {i : TranscriptInput}
    (h : transcriptKeyExists db i = true) :
    insertOrIgnoreTranscript db i = (db, 0) := by
  simp [insertOrIgnoreTranscript, h]

theorem insertTranscript_key_self (db : Db) (i : TranscriptInput) :
    transcriptKeyExists (insertOrIgnoreTranscript db i).1 i = true := by
  by_cases h : transcriptKeyExists db i
  · rw [insertTranscript_noop h]; exact h
  · simp only [insertOrIgnoreTranscript, if_neg h]
    simp only [transcriptKeyExists, List.any_eq_true, decide_eq_true_eq]
    exact ⟨⟨db.transcriptsNextId, i.episodeId, i.lineId, i.timeStart, i.timeEnd,
      i.text⟩, by simp, rfl⟩

theorem insertTranscript_key_mono {db : Db} {j : TranscriptInput}
    (i : TranscriptInput) (h : transcriptKeyExists db j = true) :
    transcriptKeyExists (insertOrIgnoreTranscript db i).1 j = true := by
  by_cases hk : transcriptKeyExists db i
  · rw [insertTranscript_noop hk]; exact h
  · simp only [transcriptKeyExists, List.any_eq_true, decide_eq_true_eq] at h
    obtain ⟨x, hx, hxn⟩ := h
    simp only [insertOrIgnoreTranscript, if_neg hk]
    simp only [transcriptKeyExists, List.any_eq_true, decide_eq_true_eq]
    exact ⟨x, by simp [hx], hxn⟩

theorem insertTranscript_fields (db : Db) (i : TranscriptInput) :
    (insertOrIgnoreTranscript db i).1.shows = db.shows ∧
      (insertOrIgnoreTranscript db i).1.episodes = db.episodes := by
  by_cases h : transcriptKeyExists db i <;> simp [insertOrIgnoreTranscript, h]

/-! ## Lemmas: clean transaction runs -/

theorem txShows_clean (rows : List ShowInput) : ∀ db : Db, ∃ db' : Db,
    txShows db (clean rows) = .ok db' ∧
    (∀ i ∈ rows, showKeyExists db' i.name = true) ∧
    (∀ n, showKeyExists db n = true → showKeyExists db' n = true) ∧
    db'.episodes = db.episodes ∧ db'.transcripts = db.transcripts := by
  induction rows with
  | nil =>
    intro db
    exact ⟨db, rfl, by simp, fun n h => h, rfl, rfl⟩
  | cons i rest ih =>
    intro db
    obtain ⟨db', h1, h2, h3, h4, h5⟩ := ih (insertOrIgnoreShow db i).1
    refine ⟨db', ?_, ?_, ?_, ?_, ?_⟩
    · simpa [clean, txShows] using h1
    · intro j hj
      rcases List.mem_cons.mp hj with rfl | hj
      · exact h3 _ (insertShow_key_self db j)
      · exact h2 j hj
    · intro n hn
      exact h3 n (insertShow_key_mono i hn)
    · rw [h4, (insertShow_fields db i).1]
    · rw [h5, (insertShow_fields db i).2]

theorem txShows_noop (rows : List ShowInput) : ∀ db : Db,
    (∀ i ∈ rows, showKeyExists db i.name = true) →
    txShows db (clean rows) = .ok db := by
  induction rows with
  | nil => intro db _; rfl
  | cons i rest ih =>
    intro db h
    have hi : insertOrIgnoreShow db i = (db, 0) := insertShow_noop (h i (by simp))
    have := ih db (fun j hj => h j (by simp [hj]))
    simpa [clean, txShows, hi] using this

theorem txEpisodes_clean (rows : List EpisodeInput) : ∀ db : Db, ∃ db' : Db,
    txEpisodes db (clean rows) = .ok db' ∧
    (∀ i ∈ rows, episodeKeyExists db' i = true) ∧
    (∀ j, episodeKeyExists db j = true → episodeKeyExists db' j = true) ∧
    db'.shows = db.shows ∧ db'.transcripts = db.transcripts := by
  induction rows with
  | nil =>
    intro db
    exact ⟨db, rfl, by simp, fun j h => h, rfl, rfl⟩
  | cons i rest ih =>
    intro db
    obtain ⟨db', h1, h2, h3, h4, h5⟩ := ih (insertOrIgnoreEpisode db i).1
    refine ⟨db', ?_, ?_, ?_, ?_, ?_⟩
    · simpa [clean, txEpisodes] using h1
    · intro j hj
      rcases List.mem_cons.mp hj with rfl | hj
      · exact h3 _ (insertEpisode_key_self db j)
      · exact h2 j hj
    · intro j hj
      exact h3 j (insertEpisode_key_mono i hj)
    · rw [h4, (insertEpisode_fields db i).1]
    · rw [h5, (insertEpisode_fields db i).2]

theorem txEpisodes_noop (rows : List EpisodeInput) : ∀ db : Db,
    (∀ i ∈ rows, episodeKeyExists db i = true) →
    txEpisodes db (clean rows) = .ok db := by
  induction rows with
  | nil => intro db _; rfl
  | cons i rest ih =>
    intro db h
    have hi : insertOrIgnoreEpisode db i = (db, 0) := insertEpisode_noop (h i (by simp))
    have := ih db (fun j hj => h j (by simp [hj]))
    simpa [clean, txEpisodes, hi] using this

theorem txTranscripts_clean (rows : List TranscriptInput) (outCsv : Bool) :
    ∀ (db : Db) (csv : List String), ∃ (db' : Db) (csv' : List String),
    txTranscripts outCsv db csv (clean rows) = (db', csv', none) ∧
    (∀ i ∈ rows, transcriptKeyExists db' i = true) ∧
    (∀ j, transcriptKeyExists db j = true → transcriptKeyExists db' j = true) ∧
    db'.shows = db.shows ∧ db'.episodes = db.episodes := by
  induction rows with
  | nil =>
    intro db csv
    exact ⟨db, csv, rfl, by simp, fun j h => h, rfl, rfl⟩
  | cons i rest ih =>
    intro db csv
    by_cases hk : transcriptKeyExists db i
    · obtain ⟨db', csv', h1, h2, h3, h4, h5⟩ := ih db csv
      refine ⟨db', csv', ?_, ?_, h3, h4, h5⟩
      · simpa [clean, txTranscripts, insertTranscript_noop hk] using h1
      · intro j hj
        rcases List.mem_cons.mp hj with rfl | hj
        · exact h3 _ hk
        · exact h2 j hj
    · obtain ⟨db', csv', h1, h2, h3, h4, h5⟩ :=
        ih (insertOrIgnoreTranscript db i).1
          (csv ++ (if outCsv then
            transcriptRecords (insertOrIgnoreTranscript db i).1.lastInsertRowid i.text
            else []))
      refine ⟨db', csv', ?_, ?_, ?_, ?_, ?_⟩
      · have hr : (insertOrIgnoreTranscript db i).2 = 1 := by
          simp [insertOrIgnoreTranscript, hk]
        simp only [clean, List.map_cons, txTranscripts, hr]
        rcases outCsv with _ | _ <;> simpa [clean] using h1
      · intro j hj
        rcases List.mem_cons.mp hj with rfl | hj
        · exact h3 _ (insertTranscript_key_self db j)
        · exact h2 j hj
      · intro j hj
        exact h3 j (insertTranscript_key_mono i hj)
      · rw [h4, (insertTranscript_fields db i).1]
      · rw [h5, (insertTranscript_fields db i).2]

theorem txTranscripts_noop (rows : List TranscriptInput) (outCsv : Bool) :
    ∀ (db : Db) (csv : List String),
    (∀ i ∈ rows, transcriptKeyExists db i = true) →
    txTranscripts outCsv db csv (clean rows) = (db, csv, none) := by
  induction rows with
  | nil => intro db csv _; rfl
  | cons i rest ih =>
    intro db csv h
    have hi : insertOrIgnoreTranscript db i = (db, 0) :=
      insertTranscript_noop (h i (by simp))
    have := ih db csv (fun j hj => h j (by simp [hj]))
    simpa [clean, txTranscripts, hi] using this

/-! ## Lemmas: a failing row aborts the transaction -/

theorem txShows_first_error (pre : List ShowInput) (i : ShowInput) (e : DbError)
    (post : List (ShowInput × Option DbError)) : ∀ db : Db,
    txShows db (clean pre ++ (i, some e) :: post) = .error e := by
  induction pre with
  | nil => intro db; rfl
  | cons p rest ih =>
    intro db
    simpa [clean, txShows] using ih (insertOrIgnoreShow db p).1

theorem txEpisodes_first_error (pre : List EpisodeInput) (i : EpisodeInput)
    (e : DbError) (post : List (EpisodeInput × Option DbError)) : ∀ db : Db,
    txEpisodes db (clean pre ++ (i, some e) :: post) = .error e := by
  induction pre with
  | nil => intro db; rfl
  | cons p rest ih =>
    intro db
    simpa [clean, txEpisodes] using ih (insertOrIgnoreEpisode db p).1

theorem txTranscripts_first_error (pre : List TranscriptInput)
    (i : TranscriptInput) (e : DbError)
    (post : List (TranscriptInput × Option DbError)) (outCsv : Bool) :
    ∀ (db : Db) (csv : List String), ∃ (d : Db) (c : List String),
    txTranscripts outCsv db csv (clean pre ++ (i, some e) :: post) =
      (d, c, some e) := by
  induction pre with
  | nil => intro db csv; exact ⟨db, csv, rfl⟩
  | cons p rest ih =>
    intro db csv
    by_cases hk : transcriptKeyExists db p
    · obtain ⟨d, c, h⟩ := ih db csv
      exact ⟨d, c, by simpa [clean, txTranscripts, insertTranscript_noop hk] using h⟩
    · have hr : (insertOrIgnoreTranscript db p).2 = 1 := by
        simp [insertOrIgnoreTranscript, hk]
      obtain ⟨d, c, h⟩ := ih (insertOrIgnoreTranscript db p).1
        (csv ++ (if outCsv then
          transcriptRecords (insertOrIgnoreTranscript db p).1.lastInsertRowid p.text
          else []))
      refine ⟨d, c, ?_⟩
      simp only [clean, List.map_cons, List.cons_append, txTranscripts, hr]
      rcases outCsv with _ | _ <;> simpa [clean] using h

/-! ## C2: batch atomicity on a failing row -/

/-- C2: for each of the three batch operations, if executing the insert for
some row fails with a non-duplicate error (modelled by the injected
per-row failure; duplicates are ignored, never errors), the call returns
that first error and the store is exactly the store from before the call —
no row of the batch is visible, for any commit-failure environment. -/
theorem c2_batch_atomic_on_row_error (db : Db) (cf : Option DbError) (e : DbError) :
    (∀ (pre : List ShowInput) (i : ShowInput)
        (post : List (ShowInput × Option DbError)),
      batchInsertShows db (clean pre ++ (i, some e) :: post) cf = (db, some e)) ∧
    (∀ (pre : List EpisodeInput) (i : EpisodeInput)
        (post : List (EpisodeInput × Option DbError)),
      batchInsertEpisodes db (clean pre ++ (i, some e) :: post) cf = (db, some e)) ∧
    (∀ (pre : List TranscriptInput) (i : TranscriptInput)
        (post : List (TranscriptInput × Option DbError)) (outCsv : Bool),
      (batchInsertTranscripts db (clean pre ++ (i, some e) :: post) outCsv cf).1 = db ∧
      (batchInsertTranscripts db (clean pre ++ (i, some e) :: post) outCsv cf).2.1 =
        some e) := by
  refine ⟨?_, ?_, ?_⟩
  · intro pre i post
    simp [batchInsertShows, txShows_first_error pre i e post db]
  · intro pre i post
    simp [batchInsertEpisodes, txEpisodes_first_error pre i e post db]
  · intro pre i post outCsv
    obtain ⟨d, c, h⟩ := txTranscripts_first_error pre i e post outCsv db []
    constructor <;> simp [batchInsertTranscripts, h]

/-! ## C1: idempotent batch ingestion -/

/-- C1: a full batch ingestion run (shows, episodes, mirrored transcripts)
is idempotent: re-running it over the identical inputs against the store
the first run produced leaves the store identical — all three tables keep
their row counts and contents — and the second run's side-export mirrors
no rows. -/
theorem c1_batch_ingestion_idempotent (db : Db) (s : List ShowInput)
    (eps : List EpisodeInput) (ts : List TranscriptInput) :
    (runOnce db s eps ts).2.1 = none ∧
    runOnce (runOnce db s eps ts).1 s eps ts =
      ((runOnce db s eps ts).1, none, []) := by
  obtain ⟨db1, hs1, hsk1, _, hse1, hst1⟩ := txShows_clean s db
  obtain ⟨db2, he1, hek1, _, hes1, het1⟩ := txEpisodes_clean eps db1
  obtain ⟨db3, csv1, ht1, htk1, _, hts1, hte1⟩ := txTranscripts_clean ts true db2 []
  have hrun : runOnce db s eps ts = (db3, none, csv1) := by
    simp only [runOnce, batchInsertShows, hs1, batchInsertEpisodes, he1,
      batchInsertTranscripts, ht1]
  have hskey3 : ∀ i ∈ s, showKeyExists db3 i.name = true := by
    intro i hi
    have h1 := hsk1 i hi
    simp only [showKeyExists] at h1 ⊢
    rw [hts1, hes1]
    exact h1
  have hekey3 : ∀ i ∈ eps, episodeKeyExists db3 i = true := by
    intro i hi
    have h1 := hek1 i hi
    simp only [episodeKeyExists] at h1 ⊢
    rw [hte1]
    exact h1
  have hs2 : txShows db3 (clean s) = .ok db3 := txShows_noop s db3 hskey3
  have he2 : txEpisodes db3 (clean eps) = .ok db3 := txEpisodes_noop eps db3 hekey3
  have ht2 : txTranscripts true db3 [] (clean ts) = (db3, [], none) :=
    txTranscripts_noop ts true db3 [] htk1
  constructor
  · rw [hrun]
  · rw [hrun]
    simp only [runOnce, batchInsertShows, hs2, batchInsertEpisodes, he2,
      batchInsertTranscripts, ht2]

/-! ## Lemmas: the side export of a fully clean transaction loop -/

theorem txTranscripts_spec (rows : List TranscriptInput) :
    ∀ (db : Db) (csv : List String) (keys : List (Int × String × String)),
    (∀ k, k ∈ keys ↔ k ∈ db.transcripts.map tKeyRow) →
    ∃ db' : Db, txTranscripts true db csv (clean rows) =
      (db', csv ++ flatRecords (acceptedRows keys db.transcriptsNextId rows),
        none) := by
  induction rows with
  | nil =>
    intro db csv keys _
    exact ⟨db, by simp [clean, txTranscripts, acceptedRows, flatRecords]⟩
  | cons i rest ih =>
    intro db csv keys hk
    by_cases hex : transcriptKeyExists db i = true
    · have hkey : tKeyIn i ∈ keys := by
        rw [hk]
        simp only [transcriptKeyExists, List.any_eq_true, decide_eq_true_eq] at hex
        obtain ⟨r, hr, hre⟩ := hex
        exact List.mem_map.mpr ⟨r, hr, hre⟩
      obtain ⟨db', h⟩ := ih db csv keys hk
      refine ⟨db', ?_⟩
      rw [show acceptedRows keys db.transcriptsNextId (i :: rest) =
        acceptedRows keys db.transcriptsNextId rest from by
          simp [acceptedRows, hkey]]
      simpa [clean, txTranscripts, insertTranscript_noop hex] using h
    · have hkey : tKeyIn i ∉ keys := by
        intro hc
        apply hex
        have := (hk _).mp hc
        simp only [List.mem_map] at this
        obtain ⟨r, hr, hre⟩ := this
        simp only [transcriptKeyExists, List.any_eq_true, decide_eq_true_eq]
        exact ⟨r, hr, hre⟩
      have hexf : transcriptKeyExists db i = false := by
        simpa using hex
      have hr2 : (insertOrIgnoreTranscript db i).2 = 1 := by
        simp [insertOrIgnoreTranscript, hexf]
      have htr : (insertOrIgnoreTranscript db i).1.transcripts =
          db.transcripts ++ [⟨db.transcriptsNextId, i.episodeId, i.lineId,
            i.timeStart, i.timeEnd, i.text⟩] := by
        simp [insertOrIgnoreTranscript, hexf]
      have hlast : (insertOrIgnoreTranscript db i).1.lastInsertRowid =
          db.transcriptsNextId := by
        simp [insertOrIgnoreTranscript, hexf]
      have hnext : (insertOrIgnoreTranscript db i).1.transcriptsNextId =
          db.transcriptsNextId + 1 := by
        simp [insertOrIgnoreTranscript, hexf]
      have hinv : ∀ k, k ∈ (tKeyIn i :: keys) ↔
          k ∈ (insertOrIgnoreTranscript db i).1.transcripts.map tKeyRow := by
        intro k
        rw [htr]
        simp only [List.mem_cons, List.map_append, List.mem_append,
          List.map_cons, List.map_nil, List.mem_singleton]
        have hkr : tKeyRow ⟨db.transcriptsNextId, i.episodeId, i.lineId,
            i.timeStart, i.timeEnd, i.text⟩ = tKeyIn i := rfl
        rw [hkr, hk k]
        tauto
      obtain ⟨db', h⟩ := ih (insertOrIgnoreTranscript db i).1
        (csv ++ transcriptRecords db.transcriptsNextId i.text)
        (tKeyIn i :: keys) hinv
      rw [hnext] at h
      refine ⟨db', ?_⟩
      rw [show acceptedRows keys db.transcriptsNextId (i :: rest) =
        (db.transcriptsNextId, i) ::
          acceptedRows (tKeyIn i :: keys) (db.transcriptsNextId + 1) rest from by
          simp [acceptedRows, hkey]]
      simp only [clean, List.map_cons, txTranscripts, hr2, hlast]
      simp only [flatRecords]
      rw [← List.append_assoc]
      simpa [clean] using h

/-! ## C9: side-export content and order -/

/-- C9: in every successful mirrored transcript batch, the side file holds
exactly one `{generated_id},{text_line}` record per embedded line of each
accepted (non-duplicate) row's text; duplicate rows contribute nothing,
and the records appear in acceptance order, as computed independently by
`sideExportSpec` from the spec's acceptance criterion. -/
theorem c9_side_export_content_order (db : Db) (rows : List TranscriptInput) :
    (batchInsertTranscripts db (clean rows) true none).2.2 =
      sideExportSpec db rows := by
  obtain ⟨db', h⟩ := txTranscripts_spec rows db [] (db.transcripts.map tKeyRow)
    (fun k => Iff.rfl)
  simp [batchInsertTranscripts, h, sideExportSpec]

/-! ## C3: side-export flush versus commit -/

/-- Counterexample to C3 as stated: a run of `batch_insert_transcripts`
with the mirror flag on in which the transaction's commit fails, yet the
flushed side-export output exists (it is written and flushed before
`commit` is called) — contradicting the claim that no execution has
flushed side-export output while the transaction fails to commit. -/
theorem c3_counterex_flush_before_commit :
    (batchInsertTranscripts emptyDb (clean [c3Row]) true
        (some (DbError.sqlError 1))).2.1 = some (DbError.sqlError 1) ∧
    (batchInsertTranscripts emptyDb (clean [c3Row]) true
        (some (DbError.sqlError 1))).2.2 = ["1,Hello"] := by
  decide

/-- C3 amended: the side-export file is flushed before the commit is
attempted, so when every row executes but the commit fails, the store
rolls back while the flushed side file still holds exactly the accepted
rows' records. -/
theorem c3_flush_precedes_commit (db : Db) (rows : List TranscriptInput)
    (e : DbError) :
    batchInsertTranscripts db (clean rows) true (some e) =
      (db, some e, sideExportSpec db rows) := by
  obtain ⟨db', h⟩ := txTranscripts_spec rows db [] (db.transcripts.map tKeyRow)
    (fun k => Iff.rfl)
  simp [batchInsertTranscripts, h, sideExportSpec]

/-! ## Lemmas: character classes -/

theorem isDigit_ne_cr {c : Char} (h : c.isDigit = true) : c ≠ '\r' := by
  intro he; subst he; exact absurd h (by decide)

theorem isDigit_ne_bom {c : Char} (h : c.isDigit = true) : c ≠ '﻿' := by
  intro he; subst he; exact absurd h (by decide)

theorem isDigit_val_le {c : Char} (h : c.isDigit = true) : c.toNat - 48 ≤ 9 := by
  simp only [Char.isDigit, Bool.and_eq_true, decide_eq_true_eq] at h
  obtain ⟨h1, h2⟩ := h
  have : c.toNat ≤ 57 := h2
  omega

/-! ## Lemmas: structure of the matcher on rendered blocks -/

theorem takeWhile_digits {num : List Char} (hd : ∀ c ∈ num, c.isDigit = true)
    (r : List Char) :
    (num ++ '\n' :: r).takeWhile Char.isDigit = num ∧
    (num ++ '\n' :: r).dropWhile Char.isDigit = '\n' :: r := by
  induction num with
  | nil =>
    refine ⟨?_, ?_⟩
    · rw [List.nil_append, List.takeWhile_cons_of_neg (by decide)]
    · rw [List.nil_append, List.dropWhile_cons_of_neg (by decide)]
  | cons c cs ih =>
    have hc := hd c (by simp)
    obtain ⟨ih1, ih2⟩ := ih (fun x hx => hd x (by simp [hx]))
    refine ⟨?_, ?_⟩
    · rw [List.cons_append, List.takeWhile_cons_of_pos (by simp [hc]), ih1]
    · rw [List.cons_append, List.dropWhile_cons_of_pos (by simp [hc]), ih2]

theorem isTsToken_elim {t : List Char} (ht : isTsToken t = true) :
    ∃ a b d e g h j k l : Char,
      t = [a, b, ':', d, e, ':', g, h, ',', j, k, l] ∧
      a.isDigit = true ∧ b.isDigit = true ∧ d.isDigit = true ∧
      e.isDigit = true ∧ g.isDigit = true ∧ h.isDigit = true ∧
      j.isDigit = true ∧ k.isDigit = true ∧ l.isDigit = true := by
  rcases t with _ | ⟨a, _ | ⟨b, _ | ⟨c, _ | ⟨d, _ | ⟨e, _ | ⟨f, _ | ⟨g, _ | ⟨h, _ |
    ⟨i, _ | ⟨j, _ | ⟨k, _ | ⟨l, _ | rest⟩⟩⟩⟩⟩⟩⟩⟩⟩⟩⟩⟩ <;>
    simp only [isTsToken] at ht <;> try exact Bool.noConfusion ht
  simp only [Bool.and_eq_true, beq_iff_eq] at ht
  obtain ⟨⟨⟨⟨⟨⟨⟨⟨⟨⟨⟨ha, hb⟩, hc⟩, hd⟩, he⟩, hf⟩, hg⟩, hh⟩, hi⟩, hj⟩, hk⟩, hl⟩ := ht
  subst hc; subst hf; subst hi
  exact ⟨a, b, d, e, g, h, j, k, l, rfl, ha, hb, hd, he, hg, hh, hj, hk, hl⟩

theorem tsToken_chars {t : List Char} (ht : isTsToken t = true) :
    ∀ c ∈ t, c.isDigit = true ∨ c = ':' ∨ c = ',' := by
  obtain ⟨a, b, d, e, g, h, j, k, l, rfl, ha, hb, hd, he, hg, hh, hj, hk, hl⟩ :=
    isTsToken_elim ht
  intro c hc
  simp only [List.mem_cons, List.not_mem_nil, or_false] at hc
  rcases hc with rfl | rfl | rfl | rfl | rfl | rfl | rfl | rfl | rfl | rfl | rfl | rfl <;>
    tauto

theorem dropLit_self (p : List Char) : ∀ r, dropLit p (p ++ r) = some r := by
  induction p with
  | nil => intro r; rfl
  | cons c cs ih => intro r; simp [dropLit, ih r]

theorem matchTsToken_token {t : List Char} (ht : isTsToken t = true)
    (r : List Char) : matchTsToken (t ++ r) = some (t, r) := by
  obtain ⟨a, b, d, e, g, h, j, k, l, rfl, ha, hb, hd, he, hg, hh, hj, hk, hl⟩ :=
    isTsToken_elim ht
  simp [matchTsToken, ha, hb, hd, he, hg, hh, hj, hk, hl]

theorem digitsVal_pair {a b : Char} (ha : a.isDigit = true)
    (hb : b.isDigit = true) : digitsVal [a, b] ≤ 99 := by
  have h1 := isDigit_val_le ha
  have h2 := isDigit_val_le hb
  simp only [digitsVal, digitsValFrom, List.foldl_cons, List.foldl_nil]
  omega

theorem digitsVal_triple {a b c : Char} (ha : a.isDigit = true)
    (hb : b.isDigit = true) (hc : c.isDigit = true) :
    digitsVal [a, b, c] ≤ 999 := by
  have h1 := isDigit_val_le ha
  have h2 := isDigit_val_le hb
  have h3 := isDigit_val_le hc
  simp only [digitsVal, digitsValFrom, List.foldl_cons, List.foldl_nil]
  omega

/-- Parsing a canonical timestamp token recovers its denoted value. -/
theorem fromStr_tsToken {t : List Char} (ht : isTsToken t = true) :
    Timestamp.fromStr t = .ok (tsVal t) := by
  obtain ⟨a, b, d, e, g, h, j, k, l, rfl, ha, hb, hd, he, hg, hh, hj, hk, hl⟩ :=
    isTsToken_elim ht
  have nd : ∀ {x y : Char}, x.isDigit = true → y.isDigit = true →
      ∀ c ∈ [x, y], c ≠ ':' ∧ c ≠ ',' := by
    intro x y hx hy c hc
    simp only [List.mem_cons, List.not_mem_nil, or_false] at hc
    rcases hc with rfl | rfl
    · exact ⟨isDigit_ne_colon hx, isDigit_ne_comma hx⟩
    · exact ⟨isDigit_ne_colon hy, isDigit_ne_comma hy⟩
  have nd3 : ∀ c ∈ [j, k, l], c ≠ ':' ∧ c ≠ ',' := by
    intro c hc
    simp only [List.mem_cons, List.not_mem_nil, or_false] at hc
    rcases hc with rfl | rfl | rfl <;>
      first
      | exact ⟨isDigit_ne_colon hj, isDigit_ne_comma hj⟩
      | exact ⟨isDigit_ne_colon hk, isDigit_ne_comma hk⟩
      | exact ⟨isDigit_ne_colon hl, isDigit_ne_comma hl⟩
  have hsplit : splitOnDelims [a, b, ':', d, e, ':', g, h, ',', j, k, l] =
      [[a, b], [d, e], [g, h], [j, k, l]] := by
    have e1 : [a, b, ':', d, e, ':', g, h, ',', j, k, l] =
        [a, b] ++ ':' :: ([d, e] ++ ':' :: ([g, h] ++ ',' :: [j, k, l])) := by
      simp
    rw [e1, splitOnDelims_append_colon _ (nd ha hb),
      splitOnDelims_append_colon _ (nd hd he),
      splitOnDelims_append_comma _ (nd hg hh),
      splitOnDelims_nodelim nd3]
  have hpair : ∀ {x y : Char}, x.isDigit = true → y.isDigit = true →
      parseU32 [x, y] = some (digitsVal [x, y]) := by
    intro x y hx hy
    refine parseUIntCore_digits (by simp) ?_ ?_
    · intro c hc
      simp only [List.mem_cons, List.not_mem_nil, or_false] at hc
      rcases hc with rfl | rfl <;> assumption
    · have := digitsVal_pair hx hy; omega
  have htrip : parseU32 [j, k, l] = some (digitsVal [j, k, l]) := by
    refine parseUIntCore_digits (by simp) ?_ ?_
    · intro c hc
      simp only [List.mem_cons, List.not_mem_nil, or_false] at hc
      rcases hc with rfl | rfl | rfl <;> assumption
    · have := digitsVal_triple hj hk hl; omega
  simp only [Timestamp.fromStr, hsplit]
  rw [hpair ha hb, hpair hd he, hpair hg hh, htrip]
  rfl

/-! ## Lemmas: the lazy body -/

theorem noNlNl_cons_of_ne {c : Char} {rest : List Char} (hc : c ≠ '\n')
    (h : noNlNl rest = true) : noNlNl (c :: rest) = true := by
  cases rest <;> simp [noNlNl, hc, h]

theorem noNlNl_tail {c : Char} {rest : List Char}
    (h : noNlNl (c :: rest) = true) : noNlNl rest = true := by
  cases rest with
  | nil => rfl
  | cons c2 r2 =>
    simp only [noNlNl, Bool.and_eq_true] at h
    exact h.2

theorem lazyBody_no_sep : ∀ {s : List Char}, noNlNl s = true →
    lazyBody s = (s, []) := by
  intro s
  induction s with
  | nil => intro _; rfl
  | cons c rest ih =>
    intro h
    cases rest with
    | nil => rfl
    | cons c2 rest2 =>
      by_cases hc : c = '\n' ∧ c2 = '\n'
      · obtain ⟨h1, h2⟩ := hc
        subst h1; subst h2
        simp [noNlNl] at h
      · have h2 : noNlNl (c2 :: rest2) = true := noNlNl_tail h
        simp [lazyBody, if_neg hc, ih h2]

theorem lazyBody_sep : ∀ {s : List Char}, noNlNl s = true →
    s.getLast? ≠ some '\n' → ∀ r : List Char,
    lazyBody (s ++ '\n' :: '\n' :: r) = (s ++ ['\n', '\n'], r) := by
  intro s
  induction s with
  | nil => intro _ _ r; rfl
  | cons c rest ih =>
    intro h hlast r
    cases rest with
    | nil =>
      have hc : c ≠ '\n' := by
        intro he; subst he
        exact hlast rfl
      simp [lazyBody, hc]
    | cons c2 rest2 =>
      by_cases hc : c = '\n' ∧ c2 = '\n'
      · obtain ⟨h1, h2⟩ := hc
        subst h1; subst h2
        simp [noNlNl] at h
      · have h2 : noNlNl (c2 :: rest2) = true := noNlNl_tail h
        have hl2 : (c2 :: rest2).getLast? ≠ some '\n' := by
          rwa [List.getLast?_cons_cons] at hlast
        have ih' := ih h2 hl2 r
        simp only [List.cons_append] at ih'
        simp [lazyBody, if_neg hc, ih']

/-! ## Lemmas: joined body lines -/

theorem noNl_noNlNl : ∀ {s : List Char}, (∀ c ∈ s, c ≠ '\n') →
    noNlNl s = true := by
  intro s
  induction s with
  | nil => intro _; rfl
  | cons c rest ih =>
    intro h
    exact noNlNl_cons_of_ne (h c (by simp)) (ih (fun x hx => h x (by simp [hx])))

theorem noNlNl_cons_nl {b : List Char} (hh : b.head? ≠ some '\n')
    (hb : noNlNl b = true) : noNlNl ('\n' :: b) = true := by
  cases b with
  | nil => rfl
  | cons c2 r2 =>
    have hc2 : c2 ≠ '\n' := by
      intro he; subst he; exact hh rfl
    simp [noNlNl, hc2, hb]

theorem noNlNl_append {a b : List Char} (ha : ∀ c ∈ a, c ≠ '\n')
    (hb : noNlNl b = true) (hh : b.head? ≠ some '\n') :
    noNlNl (a ++ '\n' :: b) = true := by
  induction a with
  | nil => exact noNlNl_cons_nl hh hb
  | cons c as_ ih =>
    exact noNlNl_cons_of_ne (ha c (by simp))
      (ih (fun x hx => ha x (by simp [hx])))

theorem getLast?_append_right : ∀ (a b : List Char), b ≠ [] →
    (a ++ b).getLast? = b.getLast? := by
  intro a
  induction a with
  | nil => intro b _; rfl
  | cons c as_ ih =>
    intro b hb
    have hx : as_ ++ b ≠ [] := by simp [hb]
    rw [List.cons_append]
    cases hax : as_ ++ b with
    | nil => exact absurd hax hx
    | cons y ys => rw [List.getLast?_cons_cons, ← hax, ih b hb]

theorem goodLine_elim {l : List Char} (h : goodLine l = true) :
    l ≠ [] ∧ (∀ c ∈ l, c ≠ '\n') ∧ (∀ c ∈ l, c ≠ '\r') := by
  simp only [goodLine, Bool.and_eq_true, List.all_eq_true, Bool.not_eq_true'] at h
  obtain ⟨h1, h2⟩ := h
  refine ⟨?_, ?_, ?_⟩
  · intro he; subst he; simp at h1
  · intro c hc
    have := h2 c hc
    simp only [Bool.and_eq_true, decide_eq_true_eq] at this
    exact this.1
  · intro c hc
    have := h2 c hc
    simp only [Bool.and_eq_true, decide_eq_true_eq] at this
    exact this.2

theorem joinLines_props : ∀ (ls : List (List Char)), ls ≠ [] →
    (∀ l ∈ ls, goodLine l = true) →
    noNlNl (joinLines ls) = true ∧ (joinLines ls).getLast? ≠ some '\n' ∧
      (joinLines ls).head? ≠ some '\n' ∧ joinLines ls ≠ [] := by
  intro ls
  induction ls with
  | nil => intro h _; exact absurd rfl h
  | cons l rest ih =>
    intro _ hg
    obtain ⟨hlne, hlnl, _⟩ := goodLine_elim (hg l (by simp))
    cases rest with
    | nil =>
      refine ⟨noNl_noNlNl hlnl, ?_, ?_, hlne⟩
      · intro hc
        exact hlnl '\n' (List.mem_of_mem_getLast? hc) rfl
      · intro hc
        exact hlnl '\n' (List.mem_of_mem_head? hc) rfl
    | cons l2 rest2 =>
      obtain ⟨ih1, ih2, ih3, ih4⟩ := ih (by simp) (fun x hx => hg x (by simp [hx]))
      have hjeq : joinLines (l :: l2 :: rest2) =
          l ++ '\n' :: joinLines (l2 :: rest2) := rfl
      refine ⟨?_, ?_, ?_, ?_⟩
      · rw [hjeq]; exact noNlNl_append hlnl ih1 ih3
      · rw [hjeq, getLast?_append_right _ _ (by simp)]
        cases hax : joinLines (l2 :: rest2) with
        | nil => exact absurd hax ih4
        | cons y ys => rw [List.getLast?_cons_cons, ← hax]; exact ih2
      · rw [hjeq]
        cases hl0 : l with
        | nil => exact absurd hl0 hlne
        | cons c cs =>
          rw [List.cons_append, List.head?_cons]
          intro hc
          simp only [Option.some.injEq] at hc
          exact hlnl '\n' (by simp [hl0, hc]) rfl
      · rw [hjeq]; simp [hlne]

theorem joinLines_no_cr : ∀ (ls : List (List Char)),
    (∀ l ∈ ls, goodLine l = true) → ∀ c ∈ joinLines ls, c ≠ '\r' := by
  intro ls
  induction ls with
  | nil => intro _ c hc; simp [joinLines] at hc
  | cons l rest ih =>
    intro hg c hc
    obtain ⟨_, _, hlcr⟩ := goodLine_elim (hg l (by simp))
    cases rest with
    | nil => exact hlcr c hc
    | cons l2 rest2 =>
      have hjeq : joinLines (l :: l2 :: rest2) =
          l ++ '\n' :: joinLines (l2 :: rest2) := rfl
      rw [hjeq] at hc
      rcases List.mem_append.mp hc with h | h
      · exact hlcr c h
      · rcases List.mem_cons.mp h with rfl | h
        · decide
        · exact ih (fun x hx => hg x (by simp [hx])) c h

/-! ## Lemmas: trimming -/

theorem dropWhile_append_nonnil : ∀ {x : List Char} (y : List Char),
    x.dropWhile isRustWs ≠ [] →
    (x ++ y).dropWhile isRustWs = x.dropWhile isRustWs ++ y := by
  intro x
  induction x with
  | nil => intro y h; exact absurd rfl h
  | cons c cs ih =>
    intro y h
    by_cases hw : isRustWs c = true
    · rw [List.dropWhile_cons_of_pos (by simp [hw])] at h
      rw [List.cons_append, List.dropWhile_cons_of_pos (by simp [hw]),
        List.dropWhile_cons_of_pos (by simp [hw]), ih y h]
    · rw [List.cons_append, List.dropWhile_cons_of_neg (by simp [hw]),
        List.dropWhile_cons_of_neg (by simp [hw]), List.cons_append]

theorem rustTrim_append_sep (x : List Char) :
    rustTrim (x ++ ['\n', '\n']) = rustTrim x := by
  by_cases hx : x.dropWhile isRustWs = []
  · have hall : ∀ c ∈ x, isRustWs c = true := by
      rw [List.dropWhile_eq_nil_iff] at hx
      exact fun c hc => hx c hc
    have h1 : (x ++ ['\n', '\n']).dropWhile isRustWs = [] := by
      rw [List.dropWhile_eq_nil_iff]
      intro a ha
      rcases List.mem_append.mp ha with h | h
      · exact hall a h
      · simp only [List.mem_cons, List.not_mem_nil, or_false] at h
        rcases h with rfl | rfl <;> decide
    unfold rustTrim
    rw [h1, hx]
  · have h1 := dropWhile_append_nonnil ['\n', '\n'] hx
    unfold rustTrim
    rw [h1, List.reverse_append]
    have h2 : (['\n', '\n'] : List Char).reverse = ['\n', '\n'] := rfl
    rw [h2]
    simp only [List.cons_append, List.nil_append]
    rw [List.dropWhile_cons_of_pos (by decide),
      List.dropWhile_cons_of_pos (by decide)]

/-! ## Lemmas: the matcher on a rendered block -/

theorem wellFormedBlock_elim {b : RawBlock} (h : wellFormedBlock b = true) :
    b.num ≠ [] ∧ (∀ c ∈ b.num, c.isDigit = true) ∧ isTsToken b.ts1 = true ∧
      isTsToken b.ts2 = true ∧ b.lines ≠ [] ∧
      ∀ l ∈ b.lines, goodLine l = true := by
  simp only [wellFormedBlock, Bool.and_eq_true, List.all_eq_true,
    Bool.not_eq_true'] at h
  obtain ⟨⟨⟨⟨⟨h1, h2⟩, h3⟩, h4⟩, h5⟩, h6⟩ := h
  refine ⟨?_, h2, h3, h4, ?_, h6⟩
  · intro he; rw [he] at h1; simp at h1
  · intro he; rw [he] at h5; simp at h5

theorem matchHere_block (b : RawBlock) (hwf : wellFormedBlock b = true)
    (t : List Char) :
    matchHere (renderBlock b ++ t) =
      some (⟨b.num, b.ts1, b.ts2, (lazyBody (joinLines b.lines ++ t)).1⟩,
        (lazyBody (joinLines b.lines ++ t)).2) := by
  obtain ⟨hne, hdig, hts1, hts2, hlne, hlg⟩ := wellFormedBlock_elim hwf
  have hshape : renderBlock b ++ t =
      b.num ++ '\n' :: (b.ts1 ++ (arrowLit ++ (b.ts2 ++ '\n' ::
        (joinLines b.lines ++ t)))) := by
    simp [renderBlock, List.append_assoc]
  rw [hshape]
  obtain ⟨htw, hdw⟩ := takeWhile_digits hdig
    (b.ts1 ++ (arrowLit ++ (b.ts2 ++ '\n' :: (joinLines b.lines ++ t))))
  simp only [matchHere, htw, hdw, if_neg hne, matchTsToken_token hts1,
    dropLit_self arrowLit, matchTsToken_token hts2]

/-! ## Lemmas: all matches of a rendered block sequence -/

theorem capturesFromF_nil (fuel : Nat) : capturesFromF fuel [] = [] := by
  cases fuel with
  | zero => rfl
  | succ f => rfl

theorem capturesFromF_render : ∀ (bs : List RawBlock), bs ≠ [] →
    (∀ b ∈ bs, wellFormedBlock b = true) → ∀ fuel,
    (renderInput bs).length + 1 ≤ fuel →
    capturesFromF fuel (renderInput bs) = capsOf bs := by
  intro bs
  induction bs with
  | nil => intro h; exact absurd rfl h
  | cons b rest ih =>
    intro _ hwf fuel hfuel
    have hwb := hwf b (by simp)
    obtain ⟨hne, hdig, hts1, hts2, hlne, hlg⟩ := wellFormedBlock_elim hwb
    obtain ⟨hj1, hj2, hj3, hj4⟩ := joinLines_props b.lines hlne hlg
    cases rest with
    | nil =>
      cases fuel with
      | zero => simp at hfuel
      | succ f =>
        have hm := matchHere_block b hwb []
        simp only [List.append_nil] at hm
        rw [lazyBody_no_sep hj1] at hm
        show capturesFromF (f + 1) (renderBlock b) = capsOf [b]
        simp [capturesFromF, hm, capturesFromF_nil, capsOf]
    | cons b2 rest2 =>
      cases fuel with
      | zero => simp at hfuel
      | succ f =>
        have hm := matchHere_block b hwb ('\n' :: '\n' :: renderInput (b2 :: rest2))
        rw [lazyBody_sep hj1 hj2 (renderInput (b2 :: rest2))] at hm
        have hlen : (renderInput (b :: b2 :: rest2)).length =
            (renderBlock b).length + 2 + (renderInput (b2 :: rest2)).length := by
          show (renderBlock b ++ '\n' :: '\n' :: renderInput (b2 :: rest2)).length = _
          simp
          omega
        have hih : capturesFromF f (renderInput (b2 :: rest2)) =
            capsOf (b2 :: rest2) := by
          apply ih (by simp) (fun x hx => hwf x (by simp [hx]))
          omega
        show capturesFromF (f + 1)
          (renderBlock b ++ '\n' :: '\n' :: renderInput (b2 :: rest2)) =
          capsOf (b :: b2 :: rest2)
        simp [capturesFromF, hm, hih, capsOf]

/-! ## Lemmas: parsing the captured blocks -/

theorem parseCap_block {b : RawBlock} (hwf : wellFormedBlock b = true)
    (hbound : digitsVal b.num ≤ 18446744073709551615) :
    parseCap ⟨b.num, b.ts1, b.ts2, joinLines b.lines⟩ = .ok (expectedSubtitle b) ∧
    parseCap ⟨b.num, b.ts1, b.ts2, joinLines b.lines ++ ['\n', '\n']⟩ =
      .ok (expectedSubtitle b) := by
  obtain ⟨hne, hdig, hts1, hts2, hlne, hlg⟩ := wellFormedBlock_elim hwf
  have hn : parseUsize b.num = some (digitsVal b.num) :=
    parseUIntCore_digits hne hdig hbound
  have h1 := fromStr_tsToken hts1
  have h2 := fromStr_tsToken hts2
  constructor
  · simp [parseCap, hn, h1, h2, expectedSubtitle]
  · simp [parseCap, hn, h1, h2, expectedSubtitle, rustTrim_append_sep]

theorem parseCaps_capsOf : ∀ bs : List RawBlock,
    (∀ b ∈ bs, wellFormedBlock b = true) →
    (∀ b ∈ bs, digitsVal b.num ≤ 18446744073709551615) →
    parseCaps (capsOf bs) = .ok (bs.map expectedSubtitle) := by
  intro bs
  induction bs with
  | nil => intro _ _; rfl
  | cons b rest ih =>
    intro hwf hbd
    cases rest with
    | nil =>
      have hpc := (parseCap_block (hwf b (by simp)) (hbd b (by simp))).1
      simp [capsOf, parseCaps, hpc]
    | cons b2 rest2 =>
      have hpc := (parseCap_block (hwf b (by simp)) (hbd b (by simp))).2
      have hih := ih (fun x hx => hwf x (by simp [hx]))
        (fun x hx => hbd x (by simp [hx]))
      simp [capsOf, parseCaps, hpc, hih]

/-! ## Lemmas: normalization is the identity on rendered input -/

theorem renderInput_no_cr : ∀ (bs : List RawBlock),
    (∀ b ∈ bs, wellFormedBlock b = true) → ∀ c ∈ renderInput bs, c ≠ '\r' := by
  have hblock : ∀ (b : RawBlock), wellFormedBlock b = true →
      ∀ c ∈ renderBlock b, c ≠ '\r' := by
    intro b hwb c hc
    obtain ⟨hne, hdig, hts1, hts2, hlne, hlg⟩ := wellFormedBlock_elim hwb
    simp only [renderBlock, List.mem_append, List.mem_cons] at hc
    rcases hc with h | rfl | (((h3 | h4) | h5) | rfl | h6)
    · exact isDigit_ne_cr (hdig c h)
    · decide
    · rcases tsToken_chars hts1 c h3 with hd | rfl | rfl
      · exact isDigit_ne_cr hd
      · decide
      · decide
    · simp only [arrowLit, List.mem_cons, List.not_mem_nil, or_false] at h4
      rcases h4 with rfl | rfl | rfl | rfl | rfl <;> decide
    · rcases tsToken_chars hts2 c h5 with hd | rfl | rfl
      · exact isDigit_ne_cr hd
      · decide
      · decide
    · decide
    · exact joinLines_no_cr b.lines hlg c h6
  intro bs
  induction bs with
  | nil => intro _ c hc; simp [renderInput] at hc
  | cons b rest ih =>
    intro hwf c hc
    cases rest with
    | nil => exact hblock b (hwf b (by simp)) c hc
    | cons b2 rest2 =>
      have hre : renderInput (b :: b2 :: rest2) =
          renderBlock b ++ '\n' :: '\n' :: renderInput (b2 :: rest2) := rfl
      rw [hre] at hc
      rcases List.mem_append.mp hc with h | h
      · exact hblock b (hwf b (by simp)) c h
      · rcases List.mem_cons.mp h with rfl | h2
        · decide
        · rcases List.mem_cons.mp h2 with rfl | h3
          · decide
          · exact ih (fun x hx => hwf x (by simp [hx])) c h3

theorem renderInput_head_digit : ∀ (bs : List RawBlock), bs ≠ [] →
    (∀ b ∈ bs, wellFormedBlock b = true) →
    ∃ (c : Char) (r : List Char), renderInput bs = c :: r ∧ c.isDigit = true := by
  intro bs hne hwf
  cases bs with
  | nil => exact absurd rfl hne
  | cons b rest =>
    obtain ⟨hnum, hdig, _, _, _, _⟩ := wellFormedBlock_elim (hwf b (by simp))
    cases hn : b.num with
    | nil => exact absurd hn hnum
    | cons c cs =>
      have hcd : c.isDigit = true := hdig c (by simp [hn])
      cases rest with
      | nil =>
        refine ⟨c, cs ++ '\n' :: (b.ts1 ++ arrowLit ++ b.ts2 ++ '\n' ::
          joinLines b.lines), ?_, hcd⟩
        show renderBlock b = _
        rw [renderBlock, hn]
        simp
      | cons b2 rest2 =>
        refine ⟨c, (cs ++ '\n' :: (b.ts1 ++ arrowLit ++ b.ts2 ++ '\n' ::
          joinLines b.lines)) ++ '\n' :: '\n' :: renderInput (b2 :: rest2),
          ?_, hcd⟩
        show renderBlock b ++ '\n' :: '\n' :: renderInput (b2 :: rest2) = _
        rw [renderBlock, hn]
        simp

theorem normalizeInput_render (bs : List RawBlock) (h1 : bs ≠ [])
    (h2 : ∀ b ∈ bs, wellFormedBlock b = true) :
    normalizeInput (renderInput bs) = renderInput bs := by
  obtain ⟨c, r, heq, hcd⟩ := renderInput_head_digit bs h1 h2
  unfold normalizeInput
  rw [heq, List.dropWhile_cons_of_neg (by simp [isDigit_ne_bom hcd]), ← heq,
    List.filter_eq_self.mpr]
  intro a ha
  simpa using renderInput_no_cr bs h2 a ha

/-! ## C4: parser totality on well-formed input -/

/-- Counterexample to C4 as stated: a single well-formed block (digit
sequence-number line, canonical timestamps, non-blank text) whose decimal
sequence number is `2 ^ 64` makes `parse_from_str` fail with
`InvalidNumber` instead of succeeding — `usize` parsing overflows. -/
theorem c4_counterex_wellformed_overflow :
    wellFormedBlock ovBlock = true ∧
      parseFromStr (renderInput [ovBlock]) = .error .invalidNumber := by
  decide

/-- C4 amended: for every nonempty sequence of well-formed blocks whose
sequence numbers fit in an unsigned 64-bit (`usize`) integer, rendered
with single blank lines between blocks, `parse_from_str` succeeds and
yields exactly one entry per block in file order, with the block's
sequence number, both timestamps, and the trimmed body text (internal
line breaks preserved). -/
theorem c4_parser_totality_amended (bs : List RawBlock) (h1 : bs ≠ [])
    (h2 : ∀ b ∈ bs, wellFormedBlock b = true)
    (h3 : ∀ b ∈ bs, digitsVal b.num ≤ 18446744073709551615) :
    parseFromStr (renderInput bs) = .ok (bs.map expectedSubtitle) := by
  have hnorm := normalizeInput_render bs h1 h2
  have hcap : capturesFrom (renderInput bs) = capsOf bs := by
    unfold capturesFrom
    exact capturesFromF_render bs h1 h2 _ (le_refl _)
  have hpc := parseCaps_capsOf bs h2 h3
  simp only [parseFromStr, hnorm, hcap, hpc]
  rw [if_neg (by simp [h1])]

/-- Witness for the amended C4 at a concrete two-block input. -/
theorem c4_witness_parser_totality :
    ([wb1, wb2] : List RawBlock) ≠ [] ∧
      (∀ b ∈ ([wb1, wb2] : List RawBlock), wellFormedBlock b = true) ∧
      (∀ b ∈ ([wb1, wb2] : List RawBlock),
        digitsVal b.num ≤ 18446744073709551615) ∧
      parseFromStr (renderInput [wb1, wb2]) =
        .ok ([wb1, wb2].map expectedSubtitle) :=
  ⟨by decide, by decide, by decide,
    c4_parser_totality_amended [wb1, wb2] (by decide) (by decide) (by decide)⟩

/-! ## Lemmas: directory aggregation -/

theorem processSrtFile_safe {m : EpisodeNumberMethod}
    (hm : m = .fromFilename ∨ m = .fromLastNumbers) (files : List FsFile)
    (filePath root : List String) (em : EpisodeNameMethod) :
    ∃ r, processSrtFile files filePath root m em = some r := by
  rcases hm with rfl | rfl <;> exact ⟨_, rfl⟩

theorem allEntries_insertEntry (m : List (String × List SrtEntry)) (k : String)
    (e : SrtEntry) :
    List.Perm (allEntries (insertEntry m k e)) (allEntries m ++ [e]) := by
  induction m with
  | nil => simp [insertEntry, allEntries]
  | cons kv rest ih =>
    obtain ⟨k', es⟩ := kv
    by_cases hk : k' = k
    · simp only [insertEntry, if_pos hk, allEntries]
      have h1 : List.Perm (es ++ ([e] ++ allEntries rest))
          (es ++ (allEntries rest ++ [e])) :=
        List.Perm.append_left es (List.perm_append_comm)
      simpa [List.append_assoc] using h1
    · simp only [insertEntry, if_neg hk, allEntries]
      have h1 := List.Perm.append_left es ih
      simpa [List.append_assoc] using h1

theorem insertBy_perm {α : Type} (le : α → α → Bool) (x : α) :
    ∀ l, List.Perm (insertBy le x l) (x :: l) := by
  intro l
  induction l with
  | nil => exact List.Perm.refl _
  | cons y ys ih =>
    by_cases h : le x y
    · simp only [insertBy, if_pos h]
      exact List.Perm.refl _
    · simp only [insertBy, if_neg h]
      exact (ih.cons y).trans (List.Perm.swap x y ys)

theorem sortBy_perm {α : Type} (le : α → α → Bool) :
    ∀ l, List.Perm (sortBy le l) l := by
  intro l
  induction l with
  | nil => exact List.Perm.refl _
  | cons x xs ih =>
    exact (insertBy_perm le x (sortBy le xs)).trans (ih.cons x)

theorem allEntries_sorted_map : ∀ (m : List (String × List SrtEntry)),
    List.Perm (allEntries (m.map (fun kv => (kv.1, sortEntries kv.2))))
      (allEntries m) := by
  intro m
  induction m with
  | nil => exact List.Perm.refl _
  | cons kv rest ih =>
    simp only [List.map_cons, allEntries]
    exact List.Perm.append (sortBy_perm _ kv.2) ih

theorem processFiles_safe {m : EpisodeNumberMethod}
    (hm : m = .fromFilename ∨ m = .fromLastNumbers) (allFiles : List FsFile)
    (root : List String) (em : EpisodeNameMethod) :
    ∀ (files : List FsFile) (acc : List (String × List SrtEntry))
      (errs : List (List String)),
    ∃ mp erl, processFiles allFiles root m em files acc errs = some (mp, erl) ∧
      erl = errs ++ (files.filter (fun f => isSrtFile f &&
        isErrOutcome (processSrtFile allFiles f.path root m em))).map
          (fun f => f.path) ∧
      List.Perm (allEntries mp)
        (allEntries acc ++ files.filterMap (fun f =>
          if isSrtFile f = true then
            okEntry (processSrtFile allFiles f.path root m em)
          else none)) := by
  intro files
  induction files with
  | nil =>
    intro acc errs
    exact ⟨acc, errs, rfl, by simp, by simp⟩
  | cons f rest ih =>
    intro acc errs
    by_cases hsrt : isSrtFile f = true
    · have hsrt' : pathExtension f.path = some srtExt := by
        simpa [isSrtFile] using hsrt
      obtain ⟨r, hr⟩ := processSrtFile_safe hm allFiles f.path root em
      cases r with
      | ok entry =>
        obtain ⟨mp, erl, h1, h2, h3⟩ := ih (insertEntry acc entry.showName entry) errs
        refine ⟨mp, erl, ?_, ?_, ?_⟩
        · simpa [processFiles, if_pos hsrt', hr] using h1
        · rw [h2, List.filter_cons]
          have hff : (isSrtFile f && isErrOutcome
              (processSrtFile allFiles f.path root m em)) = false := by
            rw [hr]; simp [isErrOutcome]
          rw [hff]
          simp
        · rw [List.filterMap_cons]
          have : (if isSrtFile f = true then
              okEntry (processSrtFile allFiles f.path root m em)
              else none) = some entry := by
            rw [if_pos hsrt, hr]; rfl
          rw [this]
          refine h3.trans ?_
          have h4 := List.Perm.append_right
            (rest.filterMap (fun f => if isSrtFile f = true then
              okEntry (processSrtFile allFiles f.path root m em) else none))
            (allEntries_insertEntry acc entry.showName entry)
          refine h4.trans ?_
          simp [List.append_assoc]
      | error pe =>
        obtain ⟨mp, erl, h1, h2, h3⟩ := ih acc (errs ++ [f.path])
        refine ⟨mp, erl, ?_, ?_, ?_⟩
        · simpa [processFiles, if_pos hsrt', hr] using h1
        · rw [h2, List.filter_cons]
          have hft : (isSrtFile f && isErrOutcome
              (processSrtFile allFiles f.path root m em)) = true := by
            rw [hr]; simp [isErrOutcome, hsrt]
          rw [hft]
          simp [List.append_assoc]
        · rw [List.filterMap_cons]
          have : (if isSrtFile f = true then
              okEntry (processSrtFile allFiles f.path root m em)
              else none) = none := by
            rw [if_pos hsrt, hr]; rfl
          rw [this]
          exact h3
    · have hsrt' : ¬(pathExtension f.path = some srtExt) := by
        simpa [isSrtFile] using hsrt
      obtain ⟨mp, erl, h1, h2, h3⟩ := ih acc errs
      refine ⟨mp, erl, ?_, ?_, ?_⟩
      · simpa [processFiles, if_neg hsrt'] using h1
      · rw [h2, List.filter_cons]
        have hsf : isSrtFile f = false := by simpa using hsrt
        have hff : (isSrtFile f && isErrOutcome
            (processSrtFile allFiles f.path root m em)) = false := by
          simp [hsf]
        rw [hff]
        simp
      · rw [List.filterMap_cons]
        have : (if isSrtFile f = true then
            okEntry (processSrtFile allFiles f.path root m em)
            else none) = none := if_neg hsrt
        rw [this]
        exact h3

/-! ## C5: bad-file tolerance of directory aggregation -/

/-- Counterexample to C5 as stated: under the `FromFileOrder` strategy, a
subtitle file whose parent directory is not a direct child of the walked
root makes episode-number resolution panic
(`fs::read_dir(show_dir).unwrap()` on a nonexistent directory), aborting
the whole aggregation — a single bad file does abort the run. -/
theorem c5_counterex_file_order_panic :
    processSrtDirectory fsPanic .fromFileOrder .fromEpisodeNumber = none := by
  decide

/-- C5 amended: under the two filename-based episode-number strategies
(which never panic), and any title strategy, aggregation is total: a
candidate `.srt` file whose processing fails is reported on the error
channel and excluded from the result mapping, and the remaining files are
still processed — the mapping's entries are exactly (a permutation of)
the successfully processed files' entries.  Under `FromFileOrder`, an
unlistable show directory panics and aborts the run instead. -/
theorem c5_aggregation_tolerant_amended (fs : FileSystem)
    (em : EpisodeNameMethod) (m : EpisodeNumberMethod)
    (hm : m = .fromFilename ∨ m = .fromLastNumbers) :
    ∃ mp errs, processSrtDirectory fs m em = some (mp, errs) ∧
      errs = (fs.files.filter (fun f => isSrtFile f &&
        isErrOutcome (processSrtFile fs.files f.path fs.root m em))).map
          (fun f => f.path) ∧
      List.Perm (allEntries mp)
        (fs.files.filterMap (fun f =>
          if isSrtFile f = true then
            okEntry (processSrtFile fs.files f.path fs.root m em)
          else none)) := by
  obtain ⟨mp0, erl, h1, h2, h3⟩ :=
    processFiles_safe hm fs.files fs.root em fs.files [] []
  refine ⟨mp0.map (fun kv => (kv.1, sortEntries kv.2)), erl, ?_, ?_, ?_⟩
  · simp [processSrtDirectory, h1]
  · simpa using h2
  · exact (allEntries_sorted_map mp0).trans (by simpa using h3)

/-- Witness for the amended C5 on a tree with one good and one bad file. -/
theorem c5_witness_aggregation :
    (EpisodeNumberMethod.fromFilename = EpisodeNumberMethod.fromFilename ∨
      EpisodeNumberMethod.fromFilename = EpisodeNumberMethod.fromLastNumbers) ∧
    ∃ mp errs,
      processSrtDirectory fsGoodBad .fromFilename .fromEpisodeNumber =
        some (mp, errs) ∧
      errs = (fsGoodBad.files.filter (fun f => isSrtFile f &&
        isErrOutcome (processSrtFile fsGoodBad.files f.path fsGoodBad.root
          .fromFilename .fromEpisodeNumber))).map (fun f => f.path) ∧
      List.Perm (allEntries mp)
        (fsGoodBad.files.filterMap (fun f =>
          if isSrtFile f = true then
            okEntry (processSrtFile fsGoodBad.files f.path fsGoodBad.root
              .fromFilename .fromEpisodeNumber)
          else none)) :=
  ⟨Or.inl rfl, c5_aggregation_tolerant_amended fsGoodBad .fromEpisodeNumber
    .fromFilename (Or.inl rfl)⟩
